import Mathlib

/-!
# Verification of the day-19 beacon/scanner alignment pipeline

Shallow embedding of `src/day19/day19.py` (numpy/pandas batch script).

Modelling conventions:

* numpy `int16` values are embedded as `ℤ` together with explicit wrapping:
  `wrap16 z` is the representative of `z` modulo `2^16` in `[-32768, 32767]`.
  Element-wise numpy operations on `int16` arrays (subtraction, `np.abs`,
  matrix products via `@`/`np.dot`, `astype(np.int16)` casts) wrap; numpy
  *reductions* (`.sum(axis=...)`, `.sum()`) on `int16` arrays are performed in
  the 64-bit platform integer and therefore do not wrap (they are exact `ℤ`
  sums of the already-wrapped elements).
* Beacons are homogeneous 4-vectors (`read_scans` appends a column of ones);
  a scan is a `List (V4 ℤ)`; 4×4 transforms are `M4 ℤ` acting on row vectors
  from the right, exactly like `beacons @ transform` in the source.
* The floating-point `np.linalg.solve` on a 4×4 system is embedded as the
  exact solve over `ℚ` (inverse via the adjugate); `np.rint` is embedded as
  rounding half to even (`rint`), and the final `astype(np.int16)` as
  `wrap16`.  `np.linalg.solve` raises `LinAlgError` on a non-square (fewer
  than 4 correspondences) or singular system; every Python exception is
  embedded as the result `none`.
* Python `list(set(a) & set(b))` iterates in an unspecified (hash-based)
  order; it is embedded as first-appearance order in `a`.  Only membership,
  never this order, is used by the claims about the correspondence builder.
* The breadth-first composer loop (`while len(known) < len(scans)`) is
  embedded with explicit fuel; exhausted fuel, `deque.popleft` on an empty
  queue, pandas `KeyError`/`IndexError` and `LinAlgError` all yield `none`.
-/

/-- Wrap an integer to the signed 16-bit representative in `[-32768, 32767]`,
i.e. the value a numpy `int16` cell holds after an overflowing operation. -/
def wrap16 (z : ℤ) : ℤ := (z + 32768) % 65536 - 32768

/-- numpy `np.abs` on an `int16` value: ordinary absolute value except that
`abs (-32768)` wraps back to `-32768`. -/
def i16abs (z : ℤ) : ℤ := wrap16 |z|

/-- Homogeneous 4-vector (a beacon row `(x, y, z, 1)` or a transform row). -/
structure V4 (α : Type) where
  x : α
  y : α
  z : α
  w : α
deriving DecidableEq

/-- 4×4 matrix given by its four rows, the layout of the homogeneous
transforms of the source (`np.eye(4)`, the solved transforms). -/
structure M4 (α : Type) where
  r0 : V4 α
  r1 : V4 α
  r2 : V4 α
  r3 : V4 α
deriving DecidableEq

/-- `np.eye(4, dtype=np.int16)`: the identity transform stored for scan 0. -/
def idM4 : M4 ℤ :=
  ⟨⟨1,0,0,0⟩, ⟨0,1,0,0⟩, ⟨0,0,1,0⟩, ⟨0,0,0,1⟩⟩

/-- Row-vector times matrix in numpy `int16` arithmetic (`v @ M` /
`np.dot(v, M)`): the accumulation happens in `int16`, hence the result of the
exact `ℤ` dot product is wrapped.  (Wrapping once at the end agrees with
wrapping every intermediate step because `wrap16` respects sums and
products modulo `2^16`.) -/
def vecMul16 (v : V4 ℤ) (M : M4 ℤ) : V4 ℤ :=
  ⟨wrap16 (v.x * M.r0.x + v.y * M.r1.x + v.z * M.r2.x + v.w * M.r3.x),
   wrap16 (v.x * M.r0.y + v.y * M.r1.y + v.z * M.r2.y + v.w * M.r3.y),
   wrap16 (v.x * M.r0.z + v.y * M.r1.z + v.z * M.r2.z + v.w * M.r3.z),
   wrap16 (v.x * M.r0.w + v.y * M.r1.w + v.z * M.r2.w + v.w * M.r3.w)⟩

/-- `beacon_hash(beacon_list, reference_beacon)` from the source:
`np.abs(beacon_list - reference_beacon).sum(axis=1)`.  The subtraction and
`np.abs` are element-wise `int16` (wrapping); the row sum is taken in the
64-bit platform integer, i.e. exactly over `ℤ`. -/
def beaconHash (beaconList : List (V4 ℤ)) (ref : V4 ℤ) : List ℤ :=
  beaconList.map (fun b =>
    i16abs (wrap16 (b.x - ref.x)) + i16abs (wrap16 (b.y - ref.y)) +
    i16abs (wrap16 (b.z - ref.z)) + i16abs (wrap16 (b.w - ref.w)))

/-- `build_lookup(scan)` from the source: for every beacon of the scan as
reference, the vector of hashes (`lookup_beacons`) and its value set
(`lookup_sets`). -/
def buildLookup (scan : List (V4 ℤ)) : List (List ℤ) × List (Finset ℤ) :=
  (scan.map (fun r => beaconHash scan r),
   scan.map (fun r => (beaconHash scan r).toFinset))

/-- One row of the overlap score table (`scores` / the `scdf` dataframe):
`(query_scan_id, qs_lookup_id, match_scan_id, match_lookup_id, score)`. -/
structure ScoreRow where
  queryScan : ℕ
  queryLookup : ℕ
  matchScan : ℕ
  matchLookup : ℕ
  score : ℕ
deriving DecidableEq

/-- First-occurrence deduplication (pandas `Series.unique` keeps the first
occurrence of each value, in order). -/
def dedupFirstAux {α : Type} [DecidableEq α] : List α → List α → List α
  | _, [] => []
  | seen, x :: xs =>
    if x ∈ seen then dedupFirstAux seen xs
    else x :: dedupFirstAux (x :: seen) xs

/-- First-occurrence deduplication of a list. -/
def dedupFirst {α : Type} [DecidableEq α] (l : List α) : List α :=
  dedupFirstAux [] l

/-- The quadruple loop of `find_scan_overlaps` (lines 109-118): for every
query scan, every reference beacon in it, every *other* scan and every
reference beacon there, record a row when the intersection of the two
fingerprint value sets has size at least `th`.  The source hardcodes
`th = 12`; it is a parameter here so that the lowered-threshold toy scenario
of the specification can also be stated. -/
def overlapScores (th : ℕ) (sets : List (List (Finset ℤ))) : List ScoreRow :=
  (List.range sets.length).flatMap (fun q =>
    (List.range (sets.getD q []).length).flatMap (fun qi =>
      (List.range sets.length).flatMap (fun m =>
        if m = q then []
        else (List.range (sets.getD m []).length).filterMap (fun mi =>
          let sc := ((sets.getD q []).getD qi ∅ ∩ (sets.getD m []).getD mi ∅).card
          if th ≤ sc then some ⟨q, qi, m, mi, sc⟩ else none))))

/-- Stable insertion into a list sorted descending by `matchLookup`
(the sort key `x[3]` of `sorted(scores, key=lambda x: x[3], reverse=True)`). -/
def insertDesc (x : ScoreRow) : List ScoreRow → List ScoreRow
  | [] => [x]
  | y :: ys => if y.matchLookup ≤ x.matchLookup then x :: y :: ys
               else y :: insertDesc x ys

/-- Stable sort, descending by `matchLookup`, mirroring Python
`sorted(..., key=lambda x: x[3], reverse=True)` (which is stable). -/
def sortDesc : List ScoreRow → List ScoreRow
  | [] => []
  | x :: xs => insertDesc x (sortDesc xs)

/-- `scdf[scdf.score >= 12].groupby("query_scan_id").match_scan_id.unique()`
applied at one key: the deduplicated match scans of all rows with the given
query scan, in dataframe order.  Looking up a key with no rows raises a
pandas `KeyError`, embedded as `none`.  (The source hardcodes the literal
`12` in this line as well; parameterized for the toy scenario.) -/
def groupConns (scdf : List ScoreRow) (th : ℕ) (q : ℕ) : Option (List ℕ) :=
  let l := dedupFirst
    ((scdf.filter (fun r => decide (th ≤ r.score) && (r.queryScan == q))).map
      (fun r => r.matchScan))
  if l.isEmpty then none else some l

/-- `np.nonzero(lookup == d)[0]`: the indices at which the fingerprint
vector holds the value `d`, in increasing order. -/
def occIdx (v : List ℤ) (d : ℤ) : List ℕ :=
  (List.range v.length).filter (fun i => decide (v.getD i 0 = d))

/-- `list(set(source_lookup) & set(target_lookup))` (line 71).  Python
iterates a set in an unspecified hash-based order; modelled as
first-appearance order in the source vector.  Membership is
order-independent. -/
def matchingVals (src tgt : List ℤ) : List ℤ :=
  dedupFirst (src.filter (fun d => decide (d ∈ tgt)))

/-- The correspondence builder of `find_transform` (lines 74-81), at the
level of indices: a shared hash value contributes the pair of its unique
positions; values occurring more than once on either side are dropped. -/
def buildMatchIdx (src tgt : List ℤ) : List (ℕ × ℕ) :=
  (matchingVals src tgt).filterMap (fun d =>
    match occIdx src d, occIdx tgt d with
    | [i], [j] => some (i, j)
    | _, _ => none)

/-- Turn index correspondences into point pairs
(`source_scan[source_match_id[0]]`, `target_scan[target_match_id[0]]`);
an out-of-range index is a Python `IndexError`, embedded as `none`. -/
def getPairs (srcScan tgtScan : List (V4 ℤ)) : List (ℕ × ℕ) → Option (List (V4 ℤ × V4 ℤ))
  | [] => some []
  | (i, j) :: rest =>
    match srcScan.get? i, tgtScan.get? j, getPairs srcScan tgtScan rest with
    | some p, some q, some acc => some ((p, q) :: acc)
    | _, _, _ => none

/-- Determinant of a 3×3 integer matrix given by its nine entries in row
order. -/
def det3 (a b c d e f g h i : ℤ) : ℤ :=
  a * (e * i - f * h) - b * (d * i - f * g) + c * (d * h - e * g)

/-- Determinant of a 4×4 integer matrix (expansion along the first row). -/
def det4 (A : M4 ℤ) : ℤ :=
  A.r0.x * det3 A.r1.y A.r1.z A.r1.w A.r2.y A.r2.z A.r2.w A.r3.y A.r3.z A.r3.w
  - A.r0.y * det3 A.r1.x A.r1.z A.r1.w A.r2.x A.r2.z A.r2.w A.r3.x A.r3.z A.r3.w
  + A.r0.z * det3 A.r1.x A.r1.y A.r1.w A.r2.x A.r2.y A.r2.w A.r3.x A.r3.y A.r3.w
  - A.r0.w * det3 A.r1.x A.r1.y A.r1.z A.r2.x A.r2.y A.r2.z A.r3.x A.r3.y A.r3.z

/-- Adjugate of a 4×4 integer matrix: entry `(i, j)` is the cofactor
`(-1)^(i+j)` times the minor obtained by deleting row `j` and column `i`,
so that `A * adj4 A = det4 A • I`. -/
def adj4 (A : M4 ℤ) : M4 ℤ :=
  ⟨⟨det3 A.r1.y A.r1.z A.r1.w A.r2.y A.r2.z A.r2.w A.r3.y A.r3.z A.r3.w,
    -det3 A.r0.y A.r0.z A.r0.w A.r2.y A.r2.z A.r2.w A.r3.y A.r3.z A.r3.w,
    det3 A.r0.y A.r0.z A.r0.w A.r1.y A.r1.z A.r1.w A.r3.y A.r3.z A.r3.w,
    -det3 A.r0.y A.r0.z A.r0.w A.r1.y A.r1.z A.r1.w A.r2.y A.r2.z A.r2.w⟩,
   ⟨-det3 A.r1.x A.r1.z A.r1.w A.r2.x A.r2.z A.r2.w A.r3.x A.r3.z A.r3.w,
    det3 A.r0.x A.r0.z A.r0.w A.r2.x A.r2.z A.r2.w A.r3.x A.r3.z A.r3.w,
    -det3 A.r0.x A.r0.z A.r0.w A.r1.x A.r1.z A.r1.w A.r3.x A.r3.z A.r3.w,
    det3 A.r0.x A.r0.z A.r0.w A.r1.x A.r1.z A.r1.w A.r2.x A.r2.z A.r2.w⟩,
   ⟨det3 A.r1.x A.r1.y A.r1.w A.r2.x A.r2.y A.r2.w A.r3.x A.r3.y A.r3.w,
    -det3 A.r0.x A.r0.y A.r0.w A.r2.x A.r2.y A.r2.w A.r3.x A.r3.y A.r3.w,
    det3 A.r0.x A.r0.y A.r0.w A.r1.x A.r1.y A.r1.w A.r3.x A.r3.y A.r3.w,
    -det3 A.r0.x A.r0.y A.r0.w A.r1.x A.r1.y A.r1.w A.r2.x A.r2.y A.r2.w⟩,
   ⟨-det3 A.r1.x A.r1.y A.r1.z A.r2.x A.r2.y A.r2.z A.r3.x A.r3.y A.r3.z,
    det3 A.r0.x A.r0.y A.r0.z A.r2.x A.r2.y A.r2.z A.r3.x A.r3.y A.r3.z,
    -det3 A.r0.x A.r0.y A.r0.z A.r1.x A.r1.y A.r1.z A.r3.x A.r3.y A.r3.z,
    det3 A.r0.x A.r0.y A.r0.z A.r1.x A.r1.y A.r1.z A.r2.x A.r2.y A.r2.z⟩⟩

/-- Exact row-vector times matrix over `ℤ` (no wrapping; used only inside
the exact linear solve, where numpy works in float64, not `int16`). -/
def rowMulZ (v : V4 ℤ) (B : M4 ℤ) : V4 ℤ :=
  ⟨v.x * B.r0.x + v.y * B.r1.x + v.z * B.r2.x + v.w * B.r3.x,
   v.x * B.r0.y + v.y * B.r1.y + v.z * B.r2.y + v.w * B.r3.y,
   v.x * B.r0.z + v.y * B.r1.z + v.z * B.r2.z + v.w * B.r3.z,
   v.x * B.r0.w + v.y * B.r1.w + v.z * B.r2.w + v.w * B.r3.w⟩

/-- Exact 4×4 integer matrix product. -/
def mul4 (A B : M4 ℤ) : M4 ℤ :=
  ⟨rowMulZ A.r0 B, rowMulZ A.r1 B, rowMulZ A.r2 B, rowMulZ A.r3 B⟩

/-- Integer scalar multiple of a 4×4 matrix. -/
def smul4 (c : ℤ) (M : M4 ℤ) : M4 ℤ :=
  ⟨⟨c * M.r0.x, c * M.r0.y, c * M.r0.z, c * M.r0.w⟩,
   ⟨c * M.r1.x, c * M.r1.y, c * M.r1.z, c * M.r1.w⟩,
   ⟨c * M.r2.x, c * M.r2.y, c * M.r2.z, c * M.r2.w⟩,
   ⟨c * M.r3.x, c * M.r3.y, c * M.r3.z, c * M.r3.w⟩⟩

/-- The numerators of the exact solution of `A · X = B` by Cramer:
`adj4 A * B` is `det4 A` times the exact rational solution, entrywise.
This is the idealization of `np.linalg.solve(A, B)` (whose float64 result,
for the well-conditioned integral systems of this program, agrees with the
exact solution to within rounding). -/
def solveNum (A B : M4 ℤ) : M4 ℤ :=
  mul4 (adj4 A) B

/-- `np.rint (n / d)` for a positive denominator: round the fraction to
the nearest integer, ties to the even integer (`n.fdiv d` is the floor of
the fraction, `n - floor * d` its remainder in `[0, d)`). -/
def rintFracPos (n d : ℤ) : ℤ :=
  if 2 * (n - n.fdiv d * d) < d then n.fdiv d
  else if d < 2 * (n - n.fdiv d * d) then n.fdiv d + 1
  else if n.fdiv d % 2 = 0 then n.fdiv d else n.fdiv d + 1

/-- `np.rint (n / d)` computed in exact integer arithmetic: normalize the
sign of the denominator, then round half to even. -/
def rintFrac (n d : ℤ) : ℤ :=
  if d < 0 then rintFracPos (-n) (-d) else rintFracPos n d

/-- `np.rint(...).astype(np.int16)` applied to one row of the solved
system, whose exact entries are `v / d`: round half to even, then cast to
`int16` (wrapping). -/
def rintWrapV (v : V4 ℤ) (d : ℤ) : V4 ℤ :=
  ⟨wrap16 (rintFrac v.x d), wrap16 (rintFrac v.y d),
   wrap16 (rintFrac v.z d), wrap16 (rintFrac v.w d)⟩

/-- `np.rint(...).astype(np.int16)` applied to the solved 4×4 transform. -/
def rintWrapM (M : M4 ℤ) (d : ℤ) : M4 ℤ :=
  ⟨rintWrapV M.r0 d, rintWrapV M.r1 d, rintWrapV M.r2 d, rintWrapV M.r3 d⟩

/-- `find_transform` (lines 70-88): build the unique-hash correspondences,
map the source points into the global frame with the (already global)
source transform, and solve the 4×4 homogeneous system on the first four
correspondences (exact solution `solveNum A B / det4 A`, rounded and cast).
`np.linalg.solve` raises `LinAlgError` on a non-square (fewer than four
correspondences) or singular system: embedded as `none`. -/
def findTransform (sourceTransform : M4 ℤ) (sourceScan targetScan : List (V4 ℤ))
    (sourceLookup targetLookup : List ℤ) : Option (M4 ℤ) :=
  match getPairs sourceScan targetScan (buildMatchIdx sourceLookup targetLookup) with
  | none => none
  | some prs =>
    match prs with
    | (s0, t0) :: (s1, t1) :: (s2, t2) :: (s3, t3) :: _ =>
      let A : M4 ℤ := ⟨t0, t1, t2, t3⟩
      let B : M4 ℤ := ⟨vecMul16 s0 sourceTransform, vecMul16 s1 sourceTransform,
                       vecMul16 s2 sourceTransform, vecMul16 s3 sourceTransform⟩
      if det4 A = 0 then none else some (rintWrapM (solveNum A B) (det4 A))
    | _ => none

/-- Dictionary lookup in the known-transform map (modelled as an
association list; entries are only ever added in front of the list and only
for keys not yet present, mirroring `known_transforms[target_id] = ...`
guarded by `if target_id not in known_transforms`). -/
def lookupA (m : List (ℕ × M4 ℤ)) (k : ℕ) : Option (M4 ℤ) :=
  (m.find? (fun p => p.1 == k)).map (fun p => p.2)

/-- The keys of the known-transform map. -/
def keysOf (m : List (ℕ × M4 ℤ)) : List ℕ :=
  m.map (fun p => p.1)

/-- The body of one resolving step of the composer loop (lines 99-103):
select the first score row for the dequeued pair `(source, target)`
(`iloc[0]`), solve the pairwise transform against the already-global source
transform, store it for the target and emit the enqueued neighbours of the
target.  Any Python exception (`IndexError` on `iloc[0]` or list indexing,
`KeyError` on `known_transforms[source]` or `connections[target]`,
`LinAlgError` in the solver) is embedded as `none`. -/
def resolveStep (scans : List (List (V4 ℤ))) (lookups : List (List (List ℤ)))
    (scdf : List ScoreRow) (conns : ℕ → Option (List ℕ))
    (known : List (ℕ × M4 ℤ)) (s t : ℕ) :
    Option (List (ℕ × M4 ℤ) × List (ℕ × ℕ)) :=
  (scdf.find? (fun r => r.queryScan == s && r.matchScan == t)).bind (fun row =>
    (lookupA known s).bind (fun Ts =>
      (scans.get? s).bind (fun sS =>
        (scans.get? t).bind (fun tS =>
          ((lookups.get? s).bind (fun l => l.get? row.queryLookup)).bind (fun sl =>
            ((lookups.get? t).bind (fun l => l.get? row.matchLookup)).bind (fun tl =>
              (findTransform Ts sS tS sl tl).bind (fun T =>
                (conns t).map (fun ct =>
                  ((t, T) :: known, ct.map (fun u => (t, u)))))))))))

/-- The `while len(known_transforms) < len(scans)` loop of
`find_scan_transforms` (lines 96-103), with explicit fuel.  A dequeued pair
whose target is already resolved is skipped (`if target_id not in
known_transforms`); otherwise the pair is resolved with `resolveStep`.
Exhausted fuel and `popleft` on an empty deque are embedded as `none`. -/
def findLoop (scans : List (List (V4 ℤ))) (lookups : List (List (List ℤ)))
    (scdf : List ScoreRow) (conns : ℕ → Option (List ℕ))
    (fuel : ℕ) (known : List (ℕ × M4 ℤ)) (queue : List (ℕ × ℕ)) :
    Option (List (ℕ × M4 ℤ)) :=
    if known.length < scans.length then
      match fuel with
      | 0 => none
      | fuel' + 1 =>
        match queue with
        | [] => none
        | (s, t) :: rest =>
          if (lookupA known t).isSome then
            findLoop scans lookups scdf conns fuel' known rest
          else
            (resolveStep scans lookups scdf conns known s t).bind (fun ka =>
              findLoop scans lookups scdf conns fuel' ka.1 (rest ++ ka.2))
    else some known

/-- `find_scan_transforms` (lines 90-104): start from scan 0 with the
identity transform, seed the queue with the connections of scan 0
(`connections[0]` raises `KeyError` when scan 0 has no overlap row), then
run the breadth-first loop. -/
def findScanTransforms (scans : List (List (V4 ℤ))) (lookups : List (List (List ℤ)))
    (scdf : List ScoreRow) (conns : ℕ → Option (List ℕ)) (fuel : ℕ) :
    Option (List (ℕ × M4 ℤ)) :=
  (conns 0).bind (fun c0 =>
    findLoop scans lookups scdf conns fuel [(0, idM4)] (c0.map (fun t => (0, t))))

/-- `np.abs(a[-1] - b[-1]).sum()` (line 131): Manhattan distance of two
transform translation rows in `int16` arithmetic, summed in 64 bit. -/
def manh16 (a b : V4 ℤ) : ℤ :=
  i16abs (wrap16 (a.x - b.x)) + i16abs (wrap16 (a.y - b.y)) +
  i16abs (wrap16 (a.z - b.z)) + i16abs (wrap16 (a.w - b.w))

/-- `day19_b(scan_transforms)` (lines 126-133): maximum over all ordered
pairs of stored transforms (a transform paired with itself included) of the
Manhattan distance of their translation rows, starting from 0. -/
def day19b (m : List (ℕ × M4 ℤ)) : ℤ :=
  ((m.map (fun p => p.2)).flatMap (fun a =>
    (m.map (fun p => p.2)).map (fun b => manh16 a.r3 b.r3))).foldl max 0

/-- The transformed-beacon accumulation of `day19` (lines 148-152):
`scans[i] @ scan_transforms[i]` concatenated over all scan ids in order;
a missing transform is a Python `KeyError`, embedded as `none`. -/
def transformedAllAux (scans : List (List (V4 ℤ))) (m : List (ℕ × M4 ℤ)) :
    List ℕ → Option (List (V4 ℤ))
  | [] => some []
  | i :: is =>
    (lookupA m i).bind (fun T =>
      (scans.get? i).bind (fun scan =>
        (transformedAllAux scans m is).map (fun acc =>
          scan.map (fun b => vecMul16 b T) ++ acc)))

/-- All transformed beacons of all scans, in scan order. -/
def transformedAll (scans : List (List (V4 ℤ))) (m : List (ℕ × M4 ℤ)) :
    Option (List (V4 ℤ)) :=
  transformedAllAux scans m (List.range scans.length)

/-- The hashing/overlap/composition front of the `day19` pipeline, with the
overlap threshold as a parameter (the source hardcodes 12, in both the score
loop and the `connections` line). -/
def pipelineTransforms (th : ℕ) (scans : List (List (V4 ℤ))) (fuel : ℕ) :
    Option (List (ℕ × M4 ℤ)) :=
  let lookupVecs := scans.map (fun s => (buildLookup s).1)
  let lookupSets := scans.map (fun s => (buildLookup s).2)
  let scdf := sortDesc (overlapScores th lookupSets)
  findScanTransforms scans lookupVecs scdf (groupConns scdf th) fuel

/-- The full `day19` pipeline with a parameterized overlap threshold: the
pair of outputs, in order, is the number of distinct rows of the merged
transformed beacons (`np.unique(..., axis=0).shape[0]`) and the maximum
scanner distance (`day19_b`). -/
def day19With (th : ℕ) (scans : List (List (V4 ℤ))) (fuel : ℕ) : Option (ℕ × ℤ) :=
  (pipelineTransforms th scans fuel).bind (fun m =>
    (transformedAll scans m).map (fun allB => (allB.dedup.length, day19b m)))

/-- `day19(file)` with the overlap threshold 12 hardcoded by the source. -/
def day19 (scans : List (List (V4 ℤ))) (fuel : ℕ) : Option (ℕ × ℤ) :=
  day19With 12 scans fuel

/-- Exact 3-D Manhattan distance of two homogeneous beacon rows, as the
specification describes the distance table entries. -/
def manhattan (a b : V4 ℤ) : ℤ :=
  |a.x - b.x| + |a.y - b.y| + |a.z - b.z|

/-- Modelled from the claim (not from the source): the variant of
`beacon_hash` in which the per-row distance *sum* is also performed modulo
`2^16`, as claim C10 asserts of every arithmetic step.  The source sums in
the 64-bit platform integer instead; the two are compared to refute the
claim. -/
def beaconHashClaimed (beaconList : List (V4 ℤ)) (ref : V4 ℤ) : List ℤ :=
  (beaconHash beaconList ref).map wrap16

/-- A signed permutation of the three coordinate axes: the data of an
axis-aligned rotation (column `j` of the rotation block holds `ε j` in row
`σ j` and zeros elsewhere).  Those with determinant `+1`, i.e.
`sign σ * ε 0 * ε 1 * ε 2 = 1`, are the 24 rotations of the puzzle. -/
structure SignedPerm where
  σ : Equiv.Perm (Fin 3)
  ε : Fin 3 → ℤ
  hsign : ∀ j, ε j = 1 ∨ ε j = -1

/-- The homogeneous rigid-transform matrix of a signed permutation together
with an integer translation `(tx, ty, tz)`: rotation block in the upper
left, translation in the last row, exactly the layout the solver produces
and `beacons @ transform` consumes. -/
def rigidEntry (p : SignedPerm) (i j : Fin 3) : ℤ :=
  if p.σ j = i then p.ε j else 0

/-- The rows of the rigid matrix of a signed permutation and a translation. -/
def rigidOfPerm (p : SignedPerm) (tx ty tz : ℤ) : M4 ℤ :=
  ⟨⟨rigidEntry p 0 0, rigidEntry p 0 1, rigidEntry p 0 2, 0⟩,
   ⟨rigidEntry p 1 0, rigidEntry p 1 1, rigidEntry p 1 2, 0⟩,
   ⟨rigidEntry p 2 0, rigidEntry p 2 1, rigidEntry p 2 2, 0⟩,
   ⟨tx, ty, tz, 1⟩⟩

/-- Coordinate selector on the three spatial components of a beacon row. -/
def getV (v : V4 ℤ) : Fin 3 → ℤ :=
  fun i => if i = 0 then v.x else if i = 1 then v.y else v.z

/-- Reachability from scan 0 along the `connections` neighbour lists: the
overlap graph the breadth-first composer traverses. -/
inductive Reaches (conns : ℕ → Option (List ℕ)) : ℕ → Prop where
  | zero : Reaches conns 0
  | step {s t : ℕ} {l : List ℕ} :
      Reaches conns s → conns s = some l → t ∈ l → Reaches conns t

/-- The toy scenario of the specification: scan 0 with five beacons, scan 1
with the same five beacons translated by `(+5, +5, +5)`. -/
def toyScans : List (List (V4 ℤ)) :=
  [[⟨0,0,0,1⟩, ⟨1,0,0,1⟩, ⟨0,1,0,1⟩, ⟨0,0,1,1⟩, ⟨1,1,1,1⟩],
   [⟨5,5,5,1⟩, ⟨6,5,5,1⟩, ⟨5,6,5,1⟩, ⟨5,5,6,1⟩, ⟨6,6,6,1⟩]]

/-- A two-scan input on which the whole pipeline succeeds at overlap
threshold 6: two identical scans of six beacons arranged centrally
symmetric about `(2, 2, 2)`, so that the fingerprint vectors of the first
beacon and of its mirror beacon share six pairwise-distinct distances. -/
def scansW : List (List (V4 ℤ)) :=
  [[⟨0,0,0,1⟩, ⟨1,0,0,1⟩, ⟨3,4,4,1⟩, ⟨0,2,0,1⟩, ⟨4,2,4,1⟩, ⟨4,4,4,1⟩],
   [⟨0,0,0,1⟩, ⟨1,0,0,1⟩, ⟨3,4,4,1⟩, ⟨0,2,0,1⟩, ⟨4,2,4,1⟩, ⟨4,4,4,1⟩]]

/-- The resolved transform map the pipeline computes on `scansW`: scan 1 is
the central reflection through `(2, 2, 2)` of scan 0. -/
def mW : List (ℕ × M4 ℤ) :=
  [(1, ⟨⟨-1,0,0,0⟩, ⟨0,-1,0,0⟩, ⟨0,0,-1,0⟩, ⟨4,4,4,1⟩⟩), (0, idM4)]

/-- A two-beacon scan whose coordinate difference (65535) overflows
`int16`: the stored distance-table entry wraps. -/
def scanOverflow : List (V4 ℤ) :=
  [⟨-32768,0,0,1⟩, ⟨32767,0,0,1⟩]

/-- A two-beacon scan whose Manhattan distance (98301) exceeds the `int16`
range even though every coordinate difference fits: the row sum is taken in
64 bit and does not wrap. -/
def scanBig : List (V4 ℤ) :=
  [⟨0,0,0,1⟩, ⟨32767,32767,32767,1⟩]

/-- Entry `(i, j)` of the distance table of a scan: element `j` of the
fingerprint vector whose reference beacon is beacon `i`. -/
def tableEntry (scan : List (V4 ℤ)) (i j : ℕ) : ℤ :=
  ((buildLookup scan).1.getD i []).getD j 0

/-- Concrete solver input for the fractional-residue analysis: four
correspondences whose exact solution maps `x` to `x / 2`. -/
def scanC6src : List (V4 ℤ) := [⟨1,0,0,1⟩, ⟨0,1,0,1⟩, ⟨0,0,1,1⟩, ⟨0,0,0,1⟩]

/-- Target points of the fractional-residue solver input. -/
def scanC6tgt : List (V4 ℤ) := [⟨2,0,0,1⟩, ⟨0,1,0,1⟩, ⟨0,0,1,1⟩, ⟨0,0,0,1⟩]

/-- Fingerprint vector (four distinct shared values) used for both sides of
the fractional-residue solver input. -/
def lkC6 : List ℤ := [10, 20, 30, 40]

attribute [ext] V4 M4

/-- The value lies in the signed 16-bit range. -/
abbrev inR16 (z : ℤ) : Prop := -32768 ≤ z ∧ z ≤ 32767

/-- All four components lie in the signed 16-bit range. -/
abbrev inR16V (v : V4 ℤ) : Prop := inR16 v.x ∧ inR16 v.y ∧ inR16 v.z ∧ inR16 v.w

/-- All sixteen entries lie in the signed 16-bit range. -/
abbrev inR16M (M : M4 ℤ) : Prop := inR16V M.r0 ∧ inR16V M.r1 ∧ inR16V M.r2 ∧ inR16V M.r3

/-- Wrap all four components of a row to `int16`. -/
def wrapV (v : V4 ℤ) : V4 ℤ := ⟨wrap16 v.x, wrap16 v.y, wrap16 v.z, wrap16 v.w⟩

/-- The keys of the known-transform map are pairwise distinct (a Python
dict cannot hold a key twice). -/
def NoDupKeys (m : List (ℕ × M4 ℤ)) : Prop := (keysOf m).Nodup

/-- The stored transform of a resolved target scan `t` was produced by the
solver from the first score row for the dequeued pair `(s, t)`, with the
source scan's transform `Ts` as stored in the final map (entries are never
overwritten, so the transform used at solve time is the final one). -/
def ResolvedInto (scans : List (List (V4 ℤ))) (lookups : List (List (List ℤ)))
    (scdf : List ScoreRow) (m : List (ℕ × M4 ℤ)) (s t : ℕ) (T : M4 ℤ) : Prop :=
  ∃ row Ts sS tS sl tl,
    scdf.find? (fun r => r.queryScan == s && r.matchScan == t) = some row ∧
    lookupA m s = some Ts ∧
    scans.get? s = some sS ∧ scans.get? t = some tS ∧
    (lookups.get? s).bind (fun l => l.get? row.queryLookup) = some sl ∧
    (lookups.get? t).bind (fun l => l.get? row.matchLookup) = some tl ∧
    findTransform Ts sS tS sl tl = some T

def scansC1 : List (List (V4 ℤ)) :=
  [[⟨0,0,0,1⟩, ⟨1,0,0,1⟩, ⟨0,2,0,1⟩, ⟨0,0,3,1⟩],
   [⟨0,0,0,1⟩, ⟨1,0,0,1⟩, ⟨0,2,0,1⟩, ⟨0,0,3,1⟩]]

def lookupsC1 : List (List (List ℤ)) := [[[0,1,2,3]], [[0,1,2,3]]]

def scdfC1 : List ScoreRow := [⟨0,0,1,0,12⟩, ⟨1,0,0,0,12⟩]

def connsC1 : ℕ → Option (List ℕ) :=
  fun q => if q = 0 then some [1] else if q = 1 then some [0] else none

def mC1 : List (ℕ × M4 ℤ) := [(1, idM4), (0, idM4)]

theorem wrap16_lb (z : ℤ) : -32768 ≤ wrap16 z := by
  have h := Int.emod_nonneg (z + 32768) (by norm_num : (65536:ℤ) ≠ 0)
  unfold wrap16; omega

theorem wrap16_ub (z : ℤ) : wrap16 z < 32768 := by
  have h := Int.emod_lt_of_pos (z + 32768) (by norm_num : (0:ℤ) < 65536)
  unfold wrap16; omega

theorem wrap16_eq_self {z : ℤ} (h1 : -32768 ≤ z) (h2 : z < 32768) :
    wrap16 z = z := by
  unfold wrap16
  rw [Int.emod_eq_of_lt (by omega) (by omega)]
  omega

theorem wrap16_emod (z : ℤ) : wrap16 z % 65536 = z % 65536 := by
  unfold wrap16
  conv_rhs => rw [show z = (z + 32768) - 32768 by ring]
  rw [Int.sub_emod ((z + 32768) % 65536), Int.sub_emod (z + 32768),
    Int.emod_emod_of_dvd _ (dvd_refl _)]

theorem wrap16_congr {a b : ℤ} (h : a % 65536 = b % 65536) :
    wrap16 a = wrap16 b := by
  unfold wrap16
  rw [Int.add_emod a, Int.add_emod b, h]

theorem wrap16_sub_wrap16 (a b : ℤ) :
    wrap16 (wrap16 a - wrap16 b) = wrap16 (a - b) := by
  apply wrap16_congr
  rw [Int.sub_emod, wrap16_emod, wrap16_emod, ← Int.sub_emod]

theorem wrap16_add_wrap16 (a b : ℤ) :
    wrap16 (wrap16 a + wrap16 b) = wrap16 (a + b) := by
  apply wrap16_congr
  rw [Int.add_emod, wrap16_emod, wrap16_emod, ← Int.add_emod]

theorem i16abs_wrap16_neg (d : ℤ) : i16abs (wrap16 (-d)) = i16abs (wrap16 d) := by
  have h1 := wrap16_lb d; have h2 := wrap16_ub d
  have h3 := wrap16_lb (-d); have h4 := wrap16_ub (-d)
  have hsum : (wrap16 (-d) + wrap16 d) % 65536 = 0 := by
    rw [Int.add_emod, wrap16_emod, wrap16_emod, ← Int.add_emod]
    simp
  have hdvd : (65536:ℤ) ∣ (wrap16 (-d) + wrap16 d) := Int.dvd_of_emod_eq_zero hsum
  obtain ⟨k, hk⟩ := hdvd
  have hk01 : k = 0 ∨ k = -1 := by omega
  rcases hk01 with hk0 | hkm
  · have : wrap16 (-d) = -wrap16 d := by omega
    rw [this]; unfold i16abs; rw [abs_neg]
  · have ha : wrap16 (-d) = -32768 := by omega
    have hb : wrap16 d = -32768 := by omega
    rw [ha, hb]

theorem i16abs_wrap16_sign {s : ℤ} (hs : s = 1 ∨ s = -1) (d : ℤ) :
    i16abs (wrap16 (s * d)) = i16abs (wrap16 d) := by
  rcases hs with h | h
  · rw [h, one_mul]
  · rw [h]
    have : (-1) * d = -d := by ring
    rw [this, i16abs_wrap16_neg]

theorem buildLookup_fst (scan : List (V4 ℤ)) :
    (buildLookup scan).1 = scan.map (beaconHash scan) := rfl

theorem tableEntry_spec {scan : List (V4 ℤ)} {i j : ℕ} {bi bj : V4 ℤ}
    (hi : scan.get? i = some bi) (hj : scan.get? j = some bj) :
    tableEntry scan i j =
      i16abs (wrap16 (bj.x - bi.x)) + i16abs (wrap16 (bj.y - bi.y)) +
      i16abs (wrap16 (bj.z - bi.z)) + i16abs (wrap16 (bj.w - bi.w)) := by
  unfold tableEntry
  have h1 : (buildLookup scan).1.getD i [] = beaconHash scan bi := by
    rw [buildLookup_fst, List.getD_eq_getElem?_getD, List.getElem?_map,
      ← List.get?_eq_getElem?, hi]
    rfl
  rw [h1]
  unfold beaconHash
  rw [List.getD_eq_getElem?_getD, List.getElem?_map,
    ← List.get?_eq_getElem?, hj]
  rfl

theorem i16abs_zero : i16abs 0 = 0 := by decide

theorem wrap16_zero : wrap16 0 = 0 := by decide

theorem i16abs_wrap16_comm (a b : ℤ) :
    i16abs (wrap16 (a - b)) = i16abs (wrap16 (b - a)) := by
  have h : b - a = -(a - b) := by ring
  rw [h, i16abs_wrap16_neg]

/-- C3 (amended): `build_lookup` produces an N×N table whose row `i` is the
fingerprint of beacon `i`; the diagonal is zero and the table is symmetric
unconditionally, and entry `(i, j)` equals the exact integer Manhattan
distance whenever every coordinate difference of the two beacons fits in
`int16` (absolute value at most 32767; beyond that the `int16` subtraction
wraps, see the counterexample). -/
theorem c3_distance_table (scan : List (V4 ℤ)) :
    ((buildLookup scan).1.length = scan.length ∧
      ∀ row ∈ (buildLookup scan).1, row.length = scan.length)
    ∧ (∀ i bi, scan.get? i = some bi → tableEntry scan i i = 0)
    ∧ (∀ i j bi bj, scan.get? i = some bi → scan.get? j = some bj →
        tableEntry scan i j = tableEntry scan j i)
    ∧ (∀ i j bi bj, scan.get? i = some bi → scan.get? j = some bj →
        bi.w = bj.w →
        |bj.x - bi.x| ≤ 32767 → |bj.y - bi.y| ≤ 32767 → |bj.z - bi.z| ≤ 32767 →
        tableEntry scan i j = manhattan bi bj) := by
  refine ⟨⟨?_, ?_⟩, ?_, ?_, ?_⟩
  · simp [buildLookup]
  · intro row hrow
    simp only [buildLookup, List.mem_map] at hrow
    obtain ⟨r, _, hr⟩ := hrow
    simp [← hr, beaconHash]
  · intro i bi hi
    rw [tableEntry_spec hi hi]
    simp [wrap16_zero, i16abs_zero]
  · intro i j bi bj hi hj
    rw [tableEntry_spec hi hj, tableEntry_spec hj hi]
    rw [i16abs_wrap16_comm bj.x bi.x, i16abs_wrap16_comm bj.y bi.y,
      i16abs_wrap16_comm bj.z bi.z, i16abs_wrap16_comm bj.w bi.w]
  · intro i j bi bj hi hj hw hx hy hz
    rw [tableEntry_spec hi hj, hw]
    have hterm : ∀ d : ℤ, |d| ≤ 32767 → i16abs (wrap16 d) = |d| := by
      intro d hd
      obtain ⟨ha, hb⟩ := abs_le.mp hd
      have h0 : (0:ℤ) ≤ |d| := abs_nonneg d
      rw [wrap16_eq_self (by linarith) (by linarith)]
      unfold i16abs
      exact wrap16_eq_self (by linarith) (by linarith)
    rw [hterm _ hx, hterm _ hy, hterm _ hz]
    simp [manhattan, wrap16_zero, i16abs_zero, abs_sub_comm]

/-- C3 counterexample: on the admissible two-beacon scan with `x`
coordinates -32768 and 32767 the stored entry `(0, 1)` is 1 (the `int16`
subtraction wraps 65535 to -1), not the exact Manhattan distance 65535. -/
theorem c3_counterexample :
    tableEntry scanOverflow 0 1 = 1 ∧
    manhattan ⟨-32768,0,0,1⟩ ⟨32767,0,0,1⟩ = 65535 ∧
    ¬ tableEntry scanOverflow 0 1 =
        manhattan ⟨-32768,0,0,1⟩ ⟨32767,0,0,1⟩ := by
  refine ⟨by decide, by decide, by decide⟩

/-- Witness for C3: the amended theorem applied to a concrete scan. -/
theorem c3_witness :
    tableEntry [⟨0,0,0,1⟩, ⟨1,2,3,1⟩] 0 0 = 0 ∧
    tableEntry [⟨0,0,0,1⟩, ⟨1,2,3,1⟩] 0 1 = tableEntry [⟨0,0,0,1⟩, ⟨1,2,3,1⟩] 1 0 ∧
    tableEntry [⟨0,0,0,1⟩, ⟨1,2,3,1⟩] 0 1 = manhattan ⟨0,0,0,1⟩ ⟨1,2,3,1⟩ :=
  ⟨(c3_distance_table _).2.1 0 ⟨0,0,0,1⟩ rfl,
   (c3_distance_table _).2.2.1 0 1 ⟨0,0,0,1⟩ ⟨1,2,3,1⟩ rfl rfl,
   (c3_distance_table _).2.2.2 0 1 ⟨0,0,0,1⟩ ⟨1,2,3,1⟩ rfl rfl rfl
     (by decide) (by decide) (by decide)⟩

/-- C10 counterexample: the fingerprint of the far corner of `scanBig`
relative to its origin beacon is 98301 = 3 × 32767, which exceeds the
`int16` range: the distance sum is not reduced modulo `2^16` (the
claim-modelled `beaconHashClaimed`, which does wrap the sum, disagrees). -/
theorem c10_counterexample :
    beaconHash scanBig ⟨0,0,0,1⟩ ≠ beaconHashClaimed scanBig ⟨0,0,0,1⟩ := by
  decide

/-- C10 (amended): element-wise `int16` steps do wrap silently into
`[-32768, 32767]` — every `wrap16` result and hence every component of an
`int16` matrix product `vecMul16` is in range — but the `np.sum` reductions
(the per-row distance sums of `beacon_hash`, and likewise the scanner
distance sums) are taken in the 64-bit platform integer: on `scanBig` the
stored fingerprint value 98301 exceeds the `int16` range. -/
theorem c10_int16_semantics :
    (∀ z : ℤ, -32768 ≤ wrap16 z ∧ wrap16 z < 32768)
    ∧ (∀ (v : V4 ℤ) (M : M4 ℤ),
        (-32768 ≤ (vecMul16 v M).x ∧ (vecMul16 v M).x < 32768) ∧
        (-32768 ≤ (vecMul16 v M).y ∧ (vecMul16 v M).y < 32768) ∧
        (-32768 ≤ (vecMul16 v M).z ∧ (vecMul16 v M).z < 32768) ∧
        (-32768 ≤ (vecMul16 v M).w ∧ (vecMul16 v M).w < 32768))
    ∧ beaconHash scanBig ⟨0,0,0,1⟩ = [0, 98301]
    ∧ (32767:ℤ) < 98301 := by
  refine ⟨fun z => ⟨wrap16_lb z, wrap16_ub z⟩, fun v M => ?_, by decide, by decide⟩
  exact ⟨⟨wrap16_lb _, wrap16_ub _⟩, ⟨wrap16_lb _, wrap16_ub _⟩,
    ⟨wrap16_lb _, wrap16_ub _⟩, ⟨wrap16_lb _, wrap16_ub _⟩⟩

theorem rigid_colsum (p : SignedPerm) (b : V4 ℤ) (j : Fin 3) :
    b.x * rigidEntry p 0 j + b.y * rigidEntry p 1 j + b.z * rigidEntry p 2 j =
      getV b (p.σ j) * p.ε j := by
  rcases k : p.σ j with ⟨v, hv⟩
  interval_cases v
  · have k0 : p.σ j = 0 := by rw [k]; rfl
    simp [rigidEntry, getV, k0]
  · have k1 : p.σ j = 1 := by rw [k]; rfl
    simp [rigidEntry, getV, k1]
  · have k2 : p.σ j = 2 := by rw [k]; rfl
    simp [rigidEntry, getV, k2]

theorem vecMul16_rigid (p : SignedPerm) (tx ty tz : ℤ) (b : V4 ℤ) (hb : b.w = 1) :
    vecMul16 b (rigidOfPerm p tx ty tz) =
      ⟨wrap16 (getV b (p.σ 0) * p.ε 0 + tx),
       wrap16 (getV b (p.σ 1) * p.ε 1 + ty),
       wrap16 (getV b (p.σ 2) * p.ε 2 + tz), 1⟩ := by
  unfold vecMul16 rigidOfPerm
  have h0 := rigid_colsum p b 0
  have h1 := rigid_colsum p b 1
  have h2 := rigid_colsum p b 2
  simp only [hb]
  congr 1
  · rw [← h0]; ring_nf
  · rw [← h1]; ring_nf
  · rw [← h2]; ring_nf
  · simp [wrap16_eq_self]

theorem hashTerm_rigid (p : SignedPerm) (tx ty tz : ℤ) (b r : V4 ℤ)
    (hb : b.w = 1) (hr : r.w = 1) :
    i16abs (wrap16 ((vecMul16 b (rigidOfPerm p tx ty tz)).x -
        (vecMul16 r (rigidOfPerm p tx ty tz)).x)) +
    i16abs (wrap16 ((vecMul16 b (rigidOfPerm p tx ty tz)).y -
        (vecMul16 r (rigidOfPerm p tx ty tz)).y)) +
    i16abs (wrap16 ((vecMul16 b (rigidOfPerm p tx ty tz)).z -
        (vecMul16 r (rigidOfPerm p tx ty tz)).z)) +
    i16abs (wrap16 ((vecMul16 b (rigidOfPerm p tx ty tz)).w -
        (vecMul16 r (rigidOfPerm p tx ty tz)).w)) =
    i16abs (wrap16 (b.x - r.x)) + i16abs (wrap16 (b.y - r.y)) +
    i16abs (wrap16 (b.z - r.z)) + i16abs (wrap16 (b.w - r.w)) := by
  rw [vecMul16_rigid p tx ty tz b hb, vecMul16_rigid p tx ty tz r hr]
  have key : ∀ (j : Fin 3) (t : ℤ),
      i16abs (wrap16 (wrap16 (getV b (p.σ j) * p.ε j + t) -
        wrap16 (getV r (p.σ j) * p.ε j + t))) =
      i16abs (wrap16 (getV b (p.σ j) - getV r (p.σ j))) := by
    intro j t
    rw [wrap16_sub_wrap16]
    have harg : getV b (p.σ j) * p.ε j + t - (getV r (p.σ j) * p.ε j + t) =
        p.ε j * (getV b (p.σ j) - getV r (p.σ j)) := by ring
    rw [harg, i16abs_wrap16_sign (p.hsign j)]
  simp only [key]
  rw [hb, hr]
  have hsum : ∀ g : Fin 3 → ℤ, g (p.σ 0) + g (p.σ 1) + g (p.σ 2) = g 0 + g 1 + g 2 := by
    intro g
    have e1 : g (p.σ 0) + g (p.σ 1) + g (p.σ 2) = ∑ j : Fin 3, g (p.σ j) := by
      rw [Fin.sum_univ_three]
    have e2 : g 0 + g 1 + g 2 = ∑ j : Fin 3, g j := by
      rw [Fin.sum_univ_three]
    rw [e1, e2, Equiv.sum_comp]
  have := hsum (fun i => i16abs (wrap16 (getV b i - getV r i)))
  simp only [getV] at this
  simp only [show ((0:Fin 3) = 0) = True by simp, if_true] at this
  simp [getV] at this ⊢
  linarith [this]

theorem beaconHash_rigid (p : SignedPerm) (tx ty tz : ℤ) (S : List (V4 ℤ))
    (hw : ∀ b ∈ S, b.w = 1) (r : V4 ℤ) (hr : r.w = 1) :
    beaconHash (S.map (fun b => vecMul16 b (rigidOfPerm p tx ty tz)))
        (vecMul16 r (rigidOfPerm p tx ty tz)) =
      beaconHash S r := by
  unfold beaconHash
  rw [List.map_map]
  apply List.map_congr_left
  intro b hb
  exact hashTerm_rigid p tx ty tz b r (hw b hb) hr

/-- C2: for every beacon set `S` in homogeneous form, every axis-aligned
signed-permutation rotation of determinant one (the 24 rotations) and every
integer translation, applying the rigid transform to all beacons (with the
`int16` matrix product of the source) leaves the multiset of per-reference
fingerprint vectors of `build_lookup` unchanged. -/
theorem c2_fingerprint_invariance (p : SignedPerm) (tx ty tz : ℤ)
    (S : List (V4 ℤ)) (hw : ∀ b ∈ S, b.w = 1)
    (hdet : ((Equiv.Perm.sign p.σ : ℤˣ) : ℤ) * (p.ε 0 * (p.ε 1 * p.ε 2)) = 1) :
    (↑(buildLookup (S.map (fun b => vecMul16 b (rigidOfPerm p tx ty tz)))).1 :
        Multiset (List ℤ)) =
      (↑(buildLookup S).1 : Multiset (List ℤ)) := by
  have hlist : (buildLookup (S.map (fun b => vecMul16 b (rigidOfPerm p tx ty tz)))).1 =
      (buildLookup S).1 := by
    rw [buildLookup_fst, buildLookup_fst, List.map_map]
    apply List.map_congr_left
    intro r hrS
    exact beaconHash_rigid p tx ty tz S hw r (hw r hrS)
  rw [hlist]

/-- Witness for C2: the identity rotation with translation `(7, -3, 5)` on a
concrete two-beacon set. -/
theorem c2_witness :
    (∀ b ∈ ([⟨1,2,3,1⟩, ⟨4,5,6,1⟩] : List (V4 ℤ)), b.w = 1) ∧
    ((Equiv.Perm.sign (1 : Equiv.Perm (Fin 3)) : ℤˣ) : ℤ) * ((1:ℤ) * ((1:ℤ) * (1:ℤ))) = 1 ∧
    (↑(buildLookup (([⟨1,2,3,1⟩, ⟨4,5,6,1⟩] : List (V4 ℤ)).map
        (fun b => vecMul16 b (rigidOfPerm ⟨1, fun _ => 1, fun _ => Or.inl rfl⟩ 7 (-3) 5)))).1 :
        Multiset (List ℤ)) =
      (↑(buildLookup ([⟨1,2,3,1⟩, ⟨4,5,6,1⟩] : List (V4 ℤ))).1 : Multiset (List ℤ)) :=
  ⟨by decide, by simp,
   c2_fingerprint_invariance ⟨1, fun _ => 1, fun _ => Or.inl rfl⟩ 7 (-3) 5 _
     (by decide) (by simp)⟩

theorem insertDesc_mem (a x : ScoreRow) (l : List ScoreRow) :
    a ∈ insertDesc x l ↔ a = x ∨ a ∈ l := by
  induction l with
  | nil => simp [insertDesc]
  | cons y ys ih =>
    unfold insertDesc
    split_ifs with h
    · simp
    · simp only [List.mem_cons, ih]
      tauto

theorem sortDesc_mem (a : ScoreRow) (l : List ScoreRow) :
    a ∈ sortDesc l ↔ a ∈ l := by
  induction l with
  | nil => simp [sortDesc]
  | cons y ys ih =>
    unfold sortDesc
    rw [insertDesc_mem, ih]
    simp

/-- C4: a row is recorded in the (sorted) overlap table at the hardcoded
threshold 12 exactly when it relates in-range reference beacons of two
*distinct* scans whose fingerprint value sets share at least 12 distances,
and its score is exactly that intersection size.  In particular no row ever
relates a scan to itself, and a pair sharing fewer than 12 distances yields
no row (and no error: the table is total). -/
theorem c4_overlap_edges (sets : List (List (Finset ℤ))) (r : ScoreRow) :
    r ∈ sortDesc (overlapScores 12 sets) ↔
      (r.queryScan < sets.length ∧
       r.queryLookup < (sets.getD r.queryScan []).length ∧
       r.matchScan < sets.length ∧
       r.matchScan ≠ r.queryScan ∧
       r.matchLookup < (sets.getD r.matchScan []).length ∧
       r.score = ((sets.getD r.queryScan []).getD r.queryLookup ∅ ∩
                  (sets.getD r.matchScan []).getD r.matchLookup ∅).card ∧
       12 ≤ r.score) := by
  rw [sortDesc_mem]
  unfold overlapScores
  constructor
  · intro h
    simp only [List.mem_flatMap, List.mem_range] at h
    obtain ⟨q, hq, qi, hqi, m, hm, hin⟩ := h
    by_cases hqm : m = q
    · simp [hqm] at hin
    · simp only [if_neg hqm] at hin
      rw [List.mem_filterMap] at hin
      obtain ⟨mi, hmi, heq⟩ := hin
      rw [List.mem_range] at hmi
      split_ifs at heq with hth
      cases heq
      exact ⟨hq, hqi, hm, hqm, hmi, rfl, hth⟩
  · rintro ⟨h1, h2, h3, h4, h5, h6, h7⟩
    simp only [List.mem_flatMap, List.mem_range]
    refine ⟨r.queryScan, h1, r.queryLookup, h2, r.matchScan, h3, ?_⟩
    rw [if_neg h4, List.mem_filterMap]
    refine ⟨r.matchLookup, List.mem_range.mpr h5, ?_⟩
    rw [if_pos (h6 ▸ h7)]
    cases r
    simp only at h6
    subst h6
    rfl

theorem occIdx_mem (v : List ℤ) (d : ℤ) (i : ℕ) :
    i ∈ occIdx v d ↔ i < v.length ∧ v.getD i 0 = d := by
  unfold occIdx
  simp [List.mem_filter, List.mem_range]

theorem occIdx_length (v : List ℤ) (d : ℤ) : (occIdx v d).length = v.count d := by
  induction v with
  | nil => rfl
  | cons a v ih =>
    unfold occIdx at ih ⊢
    rw [List.length_cons, List.range_succ_eq_map, List.filter_cons]
    have hcomp : (fun i => decide ((a :: v).getD i 0 = d)) ∘ Nat.succ =
        (fun i => decide (v.getD i 0 = d)) := by
      funext i
      simp [List.getD_cons_succ]
    rw [List.filter_map, hcomp, List.count_cons]
    simp only [List.getD_cons_zero]
    by_cases had : a = d
    · rw [if_pos (by simp [had]), if_pos (by simp [had])]
      simp only [List.length_cons, List.length_map, ih]
    · rw [if_neg (by simp [had]), if_neg (by simp [had])]
      simp only [List.length_map, ih, Nat.add_zero]

theorem occIdx_eq_singleton_iff (v : List ℤ) (d : ℤ) (i : ℕ) :
    occIdx v d = [i] ↔ (i < v.length ∧ v.getD i 0 = d ∧ v.count d = 1) := by
  constructor
  · intro h
    have hm : i ∈ occIdx v d := by rw [h]; exact List.mem_singleton_self i
    rw [occIdx_mem] at hm
    have hl := occIdx_length v d
    rw [h] at hl
    exact ⟨hm.1, hm.2, hl.symm⟩
  · rintro ⟨h1, h2, h3⟩
    have hlen : (occIdx v d).length = 1 := by rw [occIdx_length, h3]
    have hmi : i ∈ occIdx v d := (occIdx_mem v d i).mpr ⟨h1, h2⟩
    rcases hx : occIdx v d with _ | ⟨k, _ | ⟨k2, rest⟩⟩
    · rw [hx] at hmi; cases hmi
    · rw [hx] at hmi
      have : i = k := by simpa using hmi
      rw [this]
    · rw [hx] at hlen; simp at hlen

theorem get?_iff_getD (v : List ℤ) (i : ℕ) (x : ℤ) :
    v.get? i = some x ↔ (i < v.length ∧ v.getD i 0 = x) := by
  rw [List.get?_eq_getElem?, List.getD_eq_getElem?_getD]
  constructor
  · intro h
    have hlt : i < v.length := by
      by_contra hge
      rw [List.getElem?_eq_none (by omega)] at h
      cases h
    rw [h]
    exact ⟨hlt, rfl⟩
  · rintro ⟨hlt, hgd⟩
    rw [List.getElem?_eq_getElem hlt] at hgd ⊢
    simp only [Option.getD_some] at hgd
    rw [hgd]

theorem dedupFirstAux_mem {α : Type} [DecidableEq α] (l : List α) (seen : List α) (a : α) :
    a ∈ dedupFirstAux seen l ↔ a ∈ l ∧ a ∉ seen := by
  induction l generalizing seen with
  | nil => simp [dedupFirstAux]
  | cons x xs ih =>
    unfold dedupFirstAux
    split_ifs with hx
    · rw [ih]
      constructor
      · rintro ⟨h1, h2⟩
        exact ⟨List.mem_cons_of_mem x h1, h2⟩
      · rintro ⟨h1, h2⟩
        rcases List.mem_cons.mp h1 with rfl | h1a
        · exact absurd hx h2
        · exact ⟨h1a, h2⟩
    · rw [List.mem_cons, ih]
      constructor
      · intro h
        rcases h with heq | ⟨h1, h2⟩
        · subst heq
          exact ⟨List.mem_cons_self a xs, hx⟩
        · exact ⟨List.mem_cons_of_mem x h1, fun hc => h2 (List.mem_cons_of_mem x hc)⟩
      · rintro ⟨h1, h2⟩
        by_cases hax : a = x
        · exact Or.inl hax
        · rcases List.mem_cons.mp h1 with rfl | h1a
          · exact absurd rfl hax
          · refine Or.inr ⟨h1a, fun hc => ?_⟩
            rcases List.mem_cons.mp hc with h | h
            · exact hax h
            · exact h2 h

theorem dedupFirst_mem {α : Type} [DecidableEq α] (l : List α) (a : α) :
    a ∈ dedupFirst l ↔ a ∈ l := by
  unfold dedupFirst
  rw [dedupFirstAux_mem]
  simp

theorem matchingVals_mem (src tgt : List ℤ) (d : ℤ) :
    d ∈ matchingVals src tgt ↔ d ∈ src ∧ d ∈ tgt := by
  unfold matchingVals
  rw [dedupFirst_mem]
  simp [List.mem_filter]

/-- C5: a pair of beacon indices is used as a point correspondence by the
transform solver exactly when some hash value shared by the two fingerprint
vectors occurs at those indices and occurs exactly once in each vector; a
shared value that repeats on either side contributes no pair. -/
theorem c5_unique_correspondences (src tgt : List ℤ) (i j : ℕ) :
    (i, j) ∈ buildMatchIdx src tgt ↔
      ∃ d : ℤ, src.get? i = some d ∧ tgt.get? j = some d ∧
        src.count d = 1 ∧ tgt.count d = 1 := by
  unfold buildMatchIdx
  rw [List.mem_filterMap]
  constructor
  · rintro ⟨d, hd, heq⟩
    rcases hs : occIdx src d with _ | ⟨a, _ | ⟨a2, arest⟩⟩ <;> rw [hs] at heq
    · cases heq
    · rcases ht : occIdx tgt d with _ | ⟨b, _ | ⟨b2, brest⟩⟩ <;> rw [ht] at heq
      · cases heq
      · simp only [Option.some_inj, Prod.mk.injEq] at heq
        obtain ⟨rfl, rfl⟩ := heq
        have hsp := (occIdx_eq_singleton_iff src d a).mp hs
        have htp := (occIdx_eq_singleton_iff tgt d b).mp ht
        exact ⟨d, (get?_iff_getD src a d).mpr ⟨hsp.1, hsp.2.1⟩,
          (get?_iff_getD tgt b d).mpr ⟨htp.1, htp.2.1⟩, hsp.2.2, htp.2.2⟩
      · cases heq
    · cases heq
  · rintro ⟨d, hsi, htj, hcs, hct⟩
    have hsp := (get?_iff_getD src i d).mp hsi
    have htp := (get?_iff_getD tgt j d).mp htj
    have hs : occIdx src d = [i] :=
      (occIdx_eq_singleton_iff src d i).mpr ⟨hsp.1, hsp.2, hcs⟩
    have ht : occIdx tgt d = [j] :=
      (occIdx_eq_singleton_iff tgt d j).mpr ⟨htp.1, htp.2, hct⟩
    refine ⟨d, ?_, ?_⟩
    · rw [matchingVals_mem]
      exact ⟨List.get?_mem hsi, List.get?_mem htj⟩
    · rw [hs, ht]

/-- C6 counterexample: on a concrete correspondence set the exact solution
of the 4×4 system has a fractional entry (the numerator `solveNum` is not
divisible by the determinant: the exact value is 1/2), yet `find_transform`
returns a transform (np.rint rounds the entry, half to even) instead of
failing: the solver does not fail loudly on a non-trivial fractional
residue. -/
theorem c6_counterexample :
    det4 (⟨⟨2,0,0,1⟩, ⟨0,1,0,1⟩, ⟨0,0,1,1⟩, ⟨0,0,0,1⟩⟩ : M4 ℤ) = 2 ∧
    ¬ ((2:ℤ) ∣ (solveNum ⟨⟨2,0,0,1⟩, ⟨0,1,0,1⟩, ⟨0,0,1,1⟩, ⟨0,0,0,1⟩⟩
                         ⟨⟨1,0,0,1⟩, ⟨0,1,0,1⟩, ⟨0,0,1,1⟩, ⟨0,0,0,1⟩⟩).r0.x) ∧
    findTransform idM4 scanC6src scanC6tgt lkC6 lkC6 =
      some ⟨⟨0,0,0,0⟩, ⟨0,1,0,0⟩, ⟨0,0,1,0⟩, ⟨0,0,0,1⟩⟩ := by
  refine ⟨by decide, by decide, by decide⟩

/-- C6 (amended): whenever the correspondence builder yields at least four
pairs and the resulting 4×4 target system is nonsingular, `find_transform`
returns the `np.rint`-rounded, `int16`-cast exact solution — with no
integrality check whatsoever, so a fractional exact solution is silently
rounded; the solver fails (raises) only on fewer than four correspondences
or a singular system. -/
theorem c6_solver_rounds_silently (sT : M4 ℤ) (sS tS : List (V4 ℤ)) (sl tl : List ℤ)
    (prs : List (V4 ℤ × V4 ℤ)) (p0 p1 p2 p3 : V4 ℤ × V4 ℤ) (rest : List (V4 ℤ × V4 ℤ))
    (hp : getPairs sS tS (buildMatchIdx sl tl) = some prs)
    (hshape : prs = p0 :: p1 :: p2 :: p3 :: rest)
    (hdet : det4 ⟨p0.2, p1.2, p2.2, p3.2⟩ ≠ 0) :
    findTransform sT sS tS sl tl =
      some (rintWrapM (solveNum ⟨p0.2, p1.2, p2.2, p3.2⟩
          ⟨vecMul16 p0.1 sT, vecMul16 p1.1 sT,
           vecMul16 p2.1 sT, vecMul16 p3.1 sT⟩)
        (det4 ⟨p0.2, p1.2, p2.2, p3.2⟩)) := by
  obtain ⟨s0, t0⟩ := p0
  obtain ⟨s1, t1⟩ := p1
  obtain ⟨s2, t2⟩ := p2
  obtain ⟨s3, t3⟩ := p3
  unfold findTransform
  rw [hp, hshape]
  simp only
  rw [if_neg hdet]

/-- Witness for C6: the amended theorem applied to the concrete
fractional-residue input. -/
theorem c6_witness :
    findTransform idM4 scanC6src scanC6tgt lkC6 lkC6 =
      some (rintWrapM (solveNum ⟨⟨2,0,0,1⟩, ⟨0,1,0,1⟩, ⟨0,0,1,1⟩, ⟨0,0,0,1⟩⟩
          ⟨vecMul16 ⟨1,0,0,1⟩ idM4, vecMul16 ⟨0,1,0,1⟩ idM4,
           vecMul16 ⟨0,0,1,1⟩ idM4, vecMul16 ⟨0,0,0,1⟩ idM4⟩)
        (det4 ⟨⟨2,0,0,1⟩, ⟨0,1,0,1⟩, ⟨0,0,1,1⟩, ⟨0,0,0,1⟩⟩)) :=
  c6_solver_rounds_silently idM4 scanC6src scanC6tgt lkC6 lkC6
    [(⟨1,0,0,1⟩,⟨2,0,0,1⟩), (⟨0,1,0,1⟩,⟨0,1,0,1⟩),
     (⟨0,0,1,1⟩,⟨0,0,1,1⟩), (⟨0,0,0,1⟩,⟨0,0,0,1⟩)]
    (⟨1,0,0,1⟩,⟨2,0,0,1⟩) (⟨0,1,0,1⟩,⟨0,1,0,1⟩)
    (⟨0,0,1,1⟩,⟨0,0,1,1⟩) (⟨0,0,0,1⟩,⟨0,0,0,1⟩) []
    (by decide) rfl (by decide)

theorem toyPipeline_none (fuel : ℕ) : pipelineTransforms 5 toyScans fuel = none := by
  rfl

/-- C9 counterexample: with the overlap threshold lowered to 5, the
pipeline on the toy scans never resolves anything (for any fuel) — in
particular it does not resolve scan 1 with translation `(5, 5, 5)` and does
not output `(5, 15)`. -/
theorem c9_counterexample :
    ¬ ∃ (fuel : ℕ) (m : List (ℕ × M4 ℤ)) (T : M4 ℤ),
        pipelineTransforms 5 toyScans fuel = some m ∧
        lookupA m 1 = some T ∧ T.r3 = ⟨5, 5, 5, 1⟩ ∧
        day19With 5 toyScans fuel = some (5, 15) := by
  rintro ⟨fuel, m, T, h1, _, _, _⟩
  rw [toyPipeline_none fuel] at h1
  cases h1

/-- C9 (amended): in the toy scenario the five distances from any
reference beacon collapse to at most three distinct values (e.g.
`{0, 1, 3}`), so even with the minimum-overlap threshold lowered to 5 the
score loop records no overlap edge at all, `connections[0]` raises
`KeyError`, and the pipeline fails with no output instead of resolving
scan 1 with translation `(5, 5, 5)` and producing the pair `(5, 15)`. -/
theorem c9_toy_scenario_fails :
    overlapScores 5 (toyScans.map (fun s => (buildLookup s).2)) = [] ∧
    ∀ fuel : ℕ, day19With 5 toyScans fuel = none := by
  refine ⟨by decide, fun fuel => ?_⟩
  unfold day19With
  rw [toyPipeline_none fuel, Option.none_bind]

theorem mul4_adj4 (A : M4 ℤ) : mul4 A (adj4 A) = smul4 (det4 A) idM4 := by
  obtain ⟨⟨a00,a01,a02,a03⟩,⟨a10,a11,a12,a13⟩,⟨a20,a21,a22,a23⟩,⟨a30,a31,a32,a33⟩⟩ := A
  simp only [mul4, adj4, smul4, idM4, rowMulZ, det4, det3, M4.mk.injEq, V4.mk.injEq]
  refine ⟨⟨?_,?_,?_,?_⟩,⟨?_,?_,?_,?_⟩,⟨?_,?_,?_,?_⟩,⟨?_,?_,?_,?_⟩⟩ <;> ring

theorem mul4_assoc (A B C : M4 ℤ) : mul4 (mul4 A B) C = mul4 A (mul4 B C) := by
  obtain ⟨⟨a00,a01,a02,a03⟩,⟨a10,a11,a12,a13⟩,⟨a20,a21,a22,a23⟩,⟨a30,a31,a32,a33⟩⟩ := A
  obtain ⟨⟨b00,b01,b02,b03⟩,⟨b10,b11,b12,b13⟩,⟨b20,b21,b22,b23⟩,⟨b30,b31,b32,b33⟩⟩ := B
  obtain ⟨⟨c00,c01,c02,c03⟩,⟨c10,c11,c12,c13⟩,⟨c20,c21,c22,c23⟩,⟨c30,c31,c32,c33⟩⟩ := C
  simp only [mul4, rowMulZ, M4.mk.injEq, V4.mk.injEq]
  refine ⟨⟨?_,?_,?_,?_⟩,⟨?_,?_,?_,?_⟩,⟨?_,?_,?_,?_⟩,⟨?_,?_,?_,?_⟩⟩ <;> ring

theorem mul4_smul_left (c : ℤ) (A B : M4 ℤ) :
    mul4 (smul4 c A) B = smul4 c (mul4 A B) := by
  obtain ⟨⟨a00,a01,a02,a03⟩,⟨a10,a11,a12,a13⟩,⟨a20,a21,a22,a23⟩,⟨a30,a31,a32,a33⟩⟩ := A
  obtain ⟨⟨b00,b01,b02,b03⟩,⟨b10,b11,b12,b13⟩,⟨b20,b21,b22,b23⟩,⟨b30,b31,b32,b33⟩⟩ := B
  simp only [mul4, smul4, rowMulZ, M4.mk.injEq, V4.mk.injEq]
  refine ⟨⟨?_,?_,?_,?_⟩,⟨?_,?_,?_,?_⟩,⟨?_,?_,?_,?_⟩,⟨?_,?_,?_,?_⟩⟩ <;> ring

theorem mul4_smul_right (c : ℤ) (A B : M4 ℤ) :
    mul4 A (smul4 c B) = smul4 c (mul4 A B) := by
  obtain ⟨⟨a00,a01,a02,a03⟩,⟨a10,a11,a12,a13⟩,⟨a20,a21,a22,a23⟩,⟨a30,a31,a32,a33⟩⟩ := A
  obtain ⟨⟨b00,b01,b02,b03⟩,⟨b10,b11,b12,b13⟩,⟨b20,b21,b22,b23⟩,⟨b30,b31,b32,b33⟩⟩ := B
  simp only [mul4, smul4, rowMulZ, M4.mk.injEq, V4.mk.injEq]
  refine ⟨⟨?_,?_,?_,?_⟩,⟨?_,?_,?_,?_⟩,⟨?_,?_,?_,?_⟩,⟨?_,?_,?_,?_⟩⟩ <;> ring

theorem mul4_id_left (B : M4 ℤ) : mul4 idM4 B = B := by
  obtain ⟨⟨b00,b01,b02,b03⟩,⟨b10,b11,b12,b13⟩,⟨b20,b21,b22,b23⟩,⟨b30,b31,b32,b33⟩⟩ := B
  simp only [mul4, idM4, rowMulZ, M4.mk.injEq, V4.mk.injEq]
  refine ⟨⟨?_,?_,?_,?_⟩,⟨?_,?_,?_,?_⟩,⟨?_,?_,?_,?_⟩,⟨?_,?_,?_,?_⟩⟩ <;> ring

theorem mul4_solveNum (A B : M4 ℤ) :
    mul4 A (solveNum A B) = smul4 (det4 A) B := by
  unfold solveNum
  rw [← mul4_assoc, mul4_adj4, mul4_smul_left, mul4_id_left]

theorem smul4_cancel {c : ℤ} (hc : c ≠ 0) {X Y : M4 ℤ}
    (h : smul4 c X = smul4 c Y) : X = Y := by
  obtain ⟨⟨x00,x01,x02,x03⟩,⟨x10,x11,x12,x13⟩,⟨x20,x21,x22,x23⟩,⟨x30,x31,x32,x33⟩⟩ := X
  obtain ⟨⟨y00,y01,y02,y03⟩,⟨y10,y11,y12,y13⟩,⟨y20,y21,y22,y23⟩,⟨y30,y31,y32,y33⟩⟩ := Y
  simp only [smul4, M4.mk.injEq, V4.mk.injEq] at h
  obtain ⟨⟨e1,e2,e3,e4⟩,⟨e5,e6,e7,e8⟩,⟨e9,e10,e11,e12⟩,⟨e13,e14,e15,e16⟩⟩ := h
  simp only [M4.mk.injEq, V4.mk.injEq]
  refine ⟨⟨?_,?_,?_,?_⟩,⟨?_,?_,?_,?_⟩,⟨?_,?_,?_,?_⟩,⟨?_,?_,?_,?_⟩⟩ <;>
    exact mul_left_cancel₀ hc (by assumption)

theorem rintFracPos_cancel {d : ℤ} (hd : 0 < d) (t : ℤ) :
    rintFracPos (d * t) d = t := by
  unfold rintFracPos
  rw [Int.mul_fdiv_cancel_left t (by omega)]
  have h0 : d * t - t * d = 0 := by ring
  rw [h0]
  rw [if_pos (by omega)]

theorem rintFrac_cancel {d : ℤ} (hd : d ≠ 0) (t : ℤ) :
    rintFrac (d * t) d = t := by
  unfold rintFrac
  by_cases h : d < 0
  · rw [if_pos h]
    have h1 : -(d * t) = (-d) * t := by ring
    rw [h1, rintFracPos_cancel (by omega)]
  · rw [if_neg h]
    exact rintFracPos_cancel (by omega) t

theorem wrap16_idem (z : ℤ) : wrap16 (wrap16 z) = wrap16 z :=
  wrap16_eq_self (wrap16_lb z) (wrap16_ub z)

theorem vecMul16_eq_wrapV (v : V4 ℤ) (M : M4 ℤ) :
    vecMul16 v M = wrapV (rowMulZ v M) := rfl

theorem wrapV_vecMul16 (v : V4 ℤ) (M : M4 ℤ) :
    wrapV (vecMul16 v M) = vecMul16 v M := by
  simp [wrapV, vecMul16, wrap16_idem]

theorem rintWrapV_smul {d : ℤ} (hd : d ≠ 0) {v : V4 ℤ} (hr : inR16V v) :
    rintWrapV ⟨d * v.x, d * v.y, d * v.z, d * v.w⟩ d = v := by
  obtain ⟨⟨h1, h2⟩, ⟨h3, h4⟩, ⟨h5, h6⟩, ⟨h7, h8⟩⟩ := hr
  apply V4.ext
  · simp only [rintWrapV, rintFrac_cancel hd]
    exact wrap16_eq_self h1 (by omega)
  · simp only [rintWrapV, rintFrac_cancel hd]
    exact wrap16_eq_self h3 (by omega)
  · simp only [rintWrapV, rintFrac_cancel hd]
    exact wrap16_eq_self h5 (by omega)
  · simp only [rintWrapV, rintFrac_cancel hd]
    exact wrap16_eq_self h7 (by omega)

theorem rintWrapM_smul {d : ℤ} (hd : d ≠ 0) {Tz : M4 ℤ} (hr : inR16M Tz) :
    rintWrapM (smul4 d Tz) d = Tz := by
  obtain ⟨r0, r1, r2, r3⟩ := Tz
  obtain ⟨hr0, hr1, hr2, hr3⟩ := hr
  simp only [rintWrapM, smul4, M4.mk.injEq]
  exact ⟨rintWrapV_smul hd hr0, rintWrapV_smul hd hr1,
    rintWrapV_smul hd hr2, rintWrapV_smul hd hr3⟩

/-- Exactness of the solver: when the exact solution of the 4-point system
is an integral transform `Tz` within the `int16` range, `find_transform`
returns exactly `Tz`, and `Tz` maps each of the four matched target points
onto the corresponding source point as seen through the (already global)
source transform — i.e. the stored transform maps the raw target beacons
directly into the frame the source transform maps into. -/
theorem findTransform_exact
    (Ts : M4 ℤ) (sS tS : List (V4 ℤ)) (sl tl : List ℤ)
    (prs : List (V4 ℤ × V4 ℤ)) (p0 p1 p2 p3 : V4 ℤ × V4 ℤ)
    (rest : List (V4 ℤ × V4 ℤ)) (T Tz : M4 ℤ)
    (hp : getPairs sS tS (buildMatchIdx sl tl) = some prs)
    (hshape : prs = p0 :: p1 :: p2 :: p3 :: rest)
    (hT : findTransform Ts sS tS sl tl = some T)
    (hint : solveNum ⟨p0.2, p1.2, p2.2, p3.2⟩
              ⟨vecMul16 p0.1 Ts, vecMul16 p1.1 Ts, vecMul16 p2.1 Ts, vecMul16 p3.1 Ts⟩
            = smul4 (det4 ⟨p0.2, p1.2, p2.2, p3.2⟩) Tz)
    (hrange : inR16M Tz) :
    T = Tz ∧
    vecMul16 p0.2 T = vecMul16 p0.1 Ts ∧ vecMul16 p1.2 T = vecMul16 p1.1 Ts ∧
    vecMul16 p2.2 T = vecMul16 p2.1 Ts ∧ vecMul16 p3.2 T = vecMul16 p3.1 Ts := by
  obtain ⟨s0, t0⟩ := p0
  obtain ⟨s1, t1⟩ := p1
  obtain ⟨s2, t2⟩ := p2
  obtain ⟨s3, t3⟩ := p3
  simp only at hint ⊢
  unfold findTransform at hT
  rw [hp, hshape] at hT
  simp only at hT
  by_cases hd : det4 ⟨t0, t1, t2, t3⟩ = 0
  · rw [if_pos hd] at hT; cases hT
  · rw [if_neg hd] at hT
    have hTval : T = rintWrapM (solveNum ⟨t0, t1, t2, t3⟩
        ⟨vecMul16 s0 Ts, vecMul16 s1 Ts, vecMul16 s2 Ts, vecMul16 s3 Ts⟩)
        (det4 ⟨t0, t1, t2, t3⟩) := (Option.some_inj.mp hT).symm
    have hTz : T = Tz := by
      rw [hTval, hint, rintWrapM_smul hd hrange]
    have hmul : mul4 ⟨t0, t1, t2, t3⟩ Tz =
        ⟨vecMul16 s0 Ts, vecMul16 s1 Ts, vecMul16 s2 Ts, vecMul16 s3 Ts⟩ := by
      apply smul4_cancel hd
      rw [← mul4_smul_right, ← hint, mul4_solveNum]
    refine ⟨hTz, ?_, ?_, ?_, ?_⟩ <;> rw [hTz]
    · have h0 := congrArg M4.r0 hmul
      simp only [mul4] at h0
      rw [vecMul16_eq_wrapV t0 Tz]
      show wrapV (rowMulZ t0 Tz) = vecMul16 s0 Ts
      rw [h0, wrapV_vecMul16]
    · have h1 := congrArg M4.r1 hmul
      simp only [mul4] at h1
      rw [vecMul16_eq_wrapV t1 Tz]
      show wrapV (rowMulZ t1 Tz) = vecMul16 s1 Ts
      rw [h1, wrapV_vecMul16]
    · have h2 := congrArg M4.r2 hmul
      simp only [mul4] at h2
      rw [vecMul16_eq_wrapV t2 Tz]
      show wrapV (rowMulZ t2 Tz) = vecMul16 s2 Ts
      rw [h2, wrapV_vecMul16]
    · have h3 := congrArg M4.r3 hmul
      simp only [mul4] at h3
      rw [vecMul16_eq_wrapV t3 Tz]
      show wrapV (rowMulZ t3 Tz) = vecMul16 s3 Ts
      rw [h3, wrapV_vecMul16]

theorem lookupA_cons_self (t : ℕ) (T : M4 ℤ) (m : List (ℕ × M4 ℤ)) :
    lookupA ((t, T) :: m) t = some T := by
  unfold lookupA
  rw [List.find?_cons_of_pos _ (by simp)]
  rfl

theorem lookupA_cons_ne {t k : ℕ} (hne : ¬ t = k) (T : M4 ℤ) (m : List (ℕ × M4 ℤ)) :
    lookupA ((t, T) :: m) k = lookupA m k := by
  unfold lookupA
  rw [List.find?_cons_of_neg _ (by simp [hne])]

theorem lookupA_isSome_iff (m : List (ℕ × M4 ℤ)) (k : ℕ) :
    (lookupA m k).isSome = true ↔ k ∈ keysOf m := by
  induction m with
  | nil => simp [lookupA, keysOf]
  | cons p m ih =>
    obtain ⟨a, T⟩ := p
    by_cases hak : a = k
    · subst hak
      rw [lookupA_cons_self]
      simp [keysOf]
    · rw [lookupA_cons_ne hak]
      unfold keysOf at ih ⊢
      simp only [List.map_cons, List.mem_cons]
      rw [ih]
      constructor
      · exact Or.inr
      · rintro (h | h)
        · exact absurd h.symm hak
        · exact h

theorem lookupA_none_of_not_isSome {m : List (ℕ × M4 ℤ)} {k : ℕ}
    (h : ¬ (lookupA m k).isSome = true) : lookupA m k = none := by
  rcases hv : lookupA m k with _ | T
  · rfl
  · rw [hv] at h; simp at h

theorem resolveStep_some {scans : List (List (V4 ℤ))} {lookups : List (List (List ℤ))}
    {scdf : List ScoreRow} {conns : ℕ → Option (List ℕ)}
    {known known' : List (ℕ × M4 ℤ)} {s t : ℕ} {app : List (ℕ × ℕ)}
    (h : resolveStep scans lookups scdf conns known s t = some (known', app)) :
    ∃ row Ts sS tS sl tl T ct,
      scdf.find? (fun r => r.queryScan == s && r.matchScan == t) = some row ∧
      lookupA known s = some Ts ∧
      scans.get? s = some sS ∧ scans.get? t = some tS ∧
      (lookups.get? s).bind (fun l => l.get? row.queryLookup) = some sl ∧
      (lookups.get? t).bind (fun l => l.get? row.matchLookup) = some tl ∧
      findTransform Ts sS tS sl tl = some T ∧
      conns t = some ct ∧
      known' = (t, T) :: known ∧ app = ct.map (fun u => (t, u)) := by
  unfold resolveStep at h
  simp only [Option.bind_eq_some, Option.map_eq_some'] at h
  obtain ⟨row, hrow, Ts, hTs, sS, hsS, tS, htS, sl, hsl, tl, htl, T, hT, ct, hct, hpair⟩ := h
  have h1 := congrArg Prod.fst hpair
  have h2 := congrArg Prod.snd hpair
  simp only at h1 h2
  exact ⟨row, Ts, sS, tS, sl, tl, T, ct, hrow, hTs, hsS, htS,
    Option.bind_eq_some.mpr hsl, Option.bind_eq_some.mpr htl, hT, hct,
    h1.symm, h2.symm⟩

theorem findLoop_persist (scans : List (List (V4 ℤ))) (lookups : List (List (List ℤ)))
    (scdf : List ScoreRow) (conns : ℕ → Option (List ℕ)) :
    ∀ (fuel : ℕ) (known : List (ℕ × M4 ℤ)) (queue : List (ℕ × ℕ))
      (m : List (ℕ × M4 ℤ)),
      findLoop scans lookups scdf conns fuel known queue = some m →
      ∀ k T, lookupA known k = some T → lookupA m k = some T := by
  intro fuel
  induction fuel with
  | zero =>
    intro known queue m h k T hk
    rw [findLoop.eq_def] at h
    by_cases hlen : known.length < scans.length
    · rw [if_pos hlen] at h; cases h
    · rw [if_neg hlen] at h
      cases h
      exact hk
  | succ fuel ih =>
    intro known queue m h k T hk
    rw [findLoop.eq_def] at h
    by_cases hlen : known.length < scans.length
    · rw [if_pos hlen] at h
      rcases queue with _ | ⟨⟨s, t⟩, rest⟩
      · cases h
      · dsimp only at h
        by_cases ht : (lookupA known t).isSome = true
        · rw [if_pos ht] at h
          exact ih known rest m h k T hk
        · rw [if_neg ht] at h
          rw [Option.bind_eq_some] at h
          obtain ⟨ka, hka, hrec⟩ := h
          obtain ⟨known', app⟩ := ka
          obtain ⟨row, Ts, sS, tS, sl, tl, T', ct, _, _, _, _, _, _, _, _, hknown', happ⟩ :=
            resolveStep_some hka
          have hnone : lookupA known t = none := lookupA_none_of_not_isSome ht
          have hkt : ¬ t = k := by
            intro he
            rw [he] at hnone
            rw [hnone] at hk
            cases hk
          apply ih known' (rest ++ app) m hrec
          rw [hknown', lookupA_cons_ne hkt]
          exact hk
    · rw [if_neg hlen] at h
      cases h
      exact hk

theorem keys_pigeonhole {l : List ℕ} {n : ℕ} (hsub : ∀ k ∈ l, k < n)
    (hnd : l.Nodup) (hlen : n ≤ l.length) : ∀ i, i < n → i ∈ l := by
  have hsub2 : l.toFinset ⊆ Finset.range n := by
    intro x hx
    rw [Finset.mem_range]
    exact hsub x (List.mem_toFinset.mp hx)
  have hcard : (Finset.range n).card ≤ l.toFinset.card := by
    rw [Finset.card_range, List.toFinset_card_of_nodup hnd]
    exact hlen
  have heq : l.toFinset = Finset.range n := Finset.eq_of_subset_of_card_le hsub2 hcard
  intro i hi
  have hmem : i ∈ l.toFinset := by
    rw [heq, Finset.mem_range]
    exact hi
  exact List.mem_toFinset.mp hmem

theorem findLoop_complete (scans : List (List (V4 ℤ))) (lookups : List (List (List ℤ)))
    (scdf : List ScoreRow) (conns : ℕ → Option (List ℕ)) :
    ∀ (fuel : ℕ) (known : List (ℕ × M4 ℤ)) (queue : List (ℕ × ℕ))
      (m : List (ℕ × M4 ℤ)),
      findLoop scans lookups scdf conns fuel known queue = some m →
      (∀ k, k ∈ keysOf known → k < scans.length) →
      NoDupKeys known →
      NoDupKeys m ∧ ∀ i, i < scans.length → i ∈ keysOf m := by
  intro fuel
  induction fuel with
  | zero =>
    intro known queue m h hbound hnd
    rw [findLoop.eq_def] at h
    by_cases hlen : known.length < scans.length
    · rw [if_pos hlen] at h; cases h
    · rw [if_neg hlen] at h
      cases h
      refine ⟨hnd, keys_pigeonhole hbound hnd ?_⟩
      unfold keysOf
      rw [List.length_map]
      omega
  | succ fuel ih =>
    intro known queue m h hbound hnd
    rw [findLoop.eq_def] at h
    by_cases hlen : known.length < scans.length
    · rw [if_pos hlen] at h
      rcases queue with _ | ⟨⟨s, t⟩, rest⟩
      · cases h
      · dsimp only at h
        by_cases ht : (lookupA known t).isSome = true
        · rw [if_pos ht] at h
          exact ih known rest m h hbound hnd
        · rw [if_neg ht] at h
          rw [Option.bind_eq_some] at h
          obtain ⟨ka, hka, hrec⟩ := h
          obtain ⟨known', app⟩ := ka
          obtain ⟨row, Ts, sS, tS, sl, tl, T', ct, hrow, hTs, hsS, htS, hsl, htl, hT,
            hct, hknown', happ⟩ := resolveStep_some hka
          have htn : t < scans.length := by
            rw [List.get?_eq_getElem?] at htS
            exact (List.getElem?_eq_some_iff.mp htS).1
          have htk : t ∉ keysOf known := by
            intro hmem
            exact ht ((lookupA_isSome_iff known t).mpr hmem)
          apply ih known' (rest ++ app) m hrec
          · intro k hk
            rw [hknown'] at hk
            unfold keysOf at hk
            rw [List.map_cons, List.mem_cons] at hk
            rcases hk with rfl | hk
            · exact htn
            · exact hbound k hk
          · rw [hknown']
            unfold NoDupKeys keysOf
            rw [List.map_cons]
            exact List.nodup_cons.mpr ⟨htk, hnd⟩
    · rw [if_neg hlen] at h
      cases h
      refine ⟨hnd, keys_pigeonhole hbound hnd ?_⟩
      unfold keysOf
      rw [List.length_map]
      omega

theorem findLoop_reach (scans : List (List (V4 ℤ))) (lookups : List (List (List ℤ)))
    (scdf : List ScoreRow) (conns : ℕ → Option (List ℕ)) :
    ∀ (fuel : ℕ) (known : List (ℕ × M4 ℤ)) (queue : List (ℕ × ℕ))
      (m : List (ℕ × M4 ℤ)),
      findLoop scans lookups scdf conns fuel known queue = some m →
      (∀ k, k ∈ keysOf known → Reaches conns k) →
      (∀ p : ℕ × ℕ, p ∈ queue → Reaches conns p.2) →
      ∀ k, k ∈ keysOf m → Reaches conns k := by
  intro fuel
  induction fuel with
  | zero =>
    intro known queue m h hkn hq
    rw [findLoop.eq_def] at h
    by_cases hlen : known.length < scans.length
    · rw [if_pos hlen] at h; cases h
    · rw [if_neg hlen] at h
      cases h
      exact hkn
  | succ fuel ih =>
    intro known queue m h hkn hq
    rw [findLoop.eq_def] at h
    by_cases hlen : known.length < scans.length
    · rw [if_pos hlen] at h
      rcases queue with _ | ⟨⟨s, t⟩, rest⟩
      · cases h
      · dsimp only at h
        by_cases ht : (lookupA known t).isSome = true
        · rw [if_pos ht] at h
          exact ih known rest m h hkn (fun p hp => hq p (List.mem_cons_of_mem _ hp))
        · rw [if_neg ht] at h
          rw [Option.bind_eq_some] at h
          obtain ⟨ka, hka, hrec⟩ := h
          obtain ⟨known', app⟩ := ka
          obtain ⟨row, Ts, sS, tS, sl, tl, T', ct, hrow, hTs, hsS, htS, hsl, htl, hT,
            hct, hknown', happ⟩ := resolveStep_some hka
          have hreacht : Reaches conns t := hq (s, t) (List.mem_cons_self _ _)
          apply ih known' (rest ++ app) m hrec
          · intro k hk
            rw [hknown'] at hk
            unfold keysOf at hk
            rw [List.map_cons, List.mem_cons] at hk
            rcases hk with rfl | hk
            · exact hreacht
            · exact hkn k hk
          · intro p hp
            rw [List.mem_append] at hp
            rcases hp with hp | hp
            · exact hq p (List.mem_cons_of_mem _ hp)
            · rw [happ, List.mem_map] at hp
              obtain ⟨u, hu, hpu⟩ := hp
              rw [← hpu]
              exact Reaches.step hreacht hct hu
    · rw [if_neg hlen] at h
      cases h
      exact hkn

theorem findLoop_resolution (scans : List (List (V4 ℤ))) (lookups : List (List (List ℤ)))
    (scdf : List ScoreRow) (conns : ℕ → Option (List ℕ)) :
    ∀ (fuel : ℕ) (known : List (ℕ × M4 ℤ)) (queue : List (ℕ × ℕ))
      (m : List (ℕ × M4 ℤ)),
      findLoop scans lookups scdf conns fuel known queue = some m →
      ∀ t T, lookupA m t = some T →
        lookupA known t = some T ∨ ∃ s, ResolvedInto scans lookups scdf m s t T := by
  intro fuel
  induction fuel with
  | zero =>
    intro known queue m h t T hm
    rw [findLoop.eq_def] at h
    by_cases hlen : known.length < scans.length
    · rw [if_pos hlen] at h; cases h
    · rw [if_neg hlen] at h
      cases h
      exact Or.inl hm
  | succ fuel ih =>
    intro known queue m h t T hm
    rw [findLoop.eq_def] at h
    by_cases hlen : known.length < scans.length
    · rw [if_pos hlen] at h
      rcases queue with _ | ⟨⟨s, t1⟩, rest⟩
      · cases h
      · dsimp only at h
        by_cases ht : (lookupA known t1).isSome = true
        · rw [if_pos ht] at h
          exact ih known rest m h t T hm
        · rw [if_neg ht] at h
          rw [Option.bind_eq_some] at h
          obtain ⟨ka, hka, hrec⟩ := h
          obtain ⟨known', app⟩ := ka
          obtain ⟨row, Ts, sS, tS, sl, tl, T', ct, hrow, hTs, hsS, htS, hsl, htl, hT,
            hct, hknown', happ⟩ := resolveStep_some hka
          have hnone : lookupA known t1 = none := lookupA_none_of_not_isSome ht
          have hst : ¬ t1 = s := by
            intro he
            rw [he] at hnone
            rw [hnone] at hTs
            cases hTs
          rcases ih known' (rest ++ app) m hrec t T hm with hin | hex
          · rw [hknown'] at hin
            by_cases he : t1 = t
            · subst he
              rw [lookupA_cons_self] at hin
              have hTT : T' = T := Option.some_inj.mp hin
              refine Or.inr ⟨s, row, Ts, sS, tS, sl, tl, hrow, ?_, hsS, htS, hsl, htl,
                hTT ▸ hT⟩
              apply findLoop_persist scans lookups scdf conns fuel known' (rest ++ app)
                m hrec
              rw [hknown', lookupA_cons_ne hst]
              exact hTs
            · rw [lookupA_cons_ne he] at hin
              exact Or.inl hin
          · exact Or.inr hex
    · rw [if_neg hlen] at h
      cases h
      exact Or.inl hm

/-- C1 (Frame Composer invariant): (i) whenever `find_scan_transforms`
returns a map, scan 0 is stored with the identity transform, and every
other stored entry was produced by `find_transform` applied with the
*stored* (already scan-0-global) transform of its source scan — the local
solve is combined with the source's global transform before storing, never
left in an intermediate frame; (ii) once an entry is set it is never
overwritten: every entry of an intermediate state survives unchanged into
the result; (iii) dequeuing a pair whose target is already resolved leaves
the state unchanged (re-visits are ignored); (iv) whenever the exact
solution of the solved 4-point system is an integral in-range transform,
the stored transform maps the four matched raw target beacons onto exactly
the points the source's global transform assigns — i.e. directly into the
scan-0 global frame. -/
theorem c1_frame_composer :
    (∀ (scans : List (List (V4 ℤ))) (lookups : List (List (List ℤ)))
       (scdf : List ScoreRow) (conns : ℕ → Option (List ℕ)) (fuel : ℕ)
       (m : List (ℕ × M4 ℤ)),
        findScanTransforms scans lookups scdf conns fuel = some m →
          lookupA m 0 = some idM4 ∧
          (∀ t T, lookupA m t = some T → ¬ t = 0 →
            ∃ s, ResolvedInto scans lookups scdf m s t T))
    ∧ (∀ (scans : List (List (V4 ℤ))) (lookups : List (List (List ℤ)))
       (scdf : List ScoreRow) (conns : ℕ → Option (List ℕ)) (fuel : ℕ)
       (known : List (ℕ × M4 ℤ)) (queue : List (ℕ × ℕ)) (m : List (ℕ × M4 ℤ))
       (k : ℕ) (T : M4 ℤ),
        findLoop scans lookups scdf conns fuel known queue = some m →
        lookupA known k = some T → lookupA m k = some T)
    ∧ (∀ (scans : List (List (V4 ℤ))) (lookups : List (List (List ℤ)))
       (scdf : List ScoreRow) (conns : ℕ → Option (List ℕ)) (fuel : ℕ)
       (known : List (ℕ × M4 ℤ)) (queue : List (ℕ × ℕ)) (s t : ℕ),
        known.length < scans.length → (lookupA known t).isSome = true →
        findLoop scans lookups scdf conns (fuel + 1) known ((s, t) :: queue) =
          findLoop scans lookups scdf conns fuel known queue)
    ∧ (∀ (Ts : M4 ℤ) (sS tS : List (V4 ℤ)) (sl tl : List ℤ)
       (prs : List (V4 ℤ × V4 ℤ)) (p0 p1 p2 p3 : V4 ℤ × V4 ℤ)
       (rest : List (V4 ℤ × V4 ℤ)) (T Tz : M4 ℤ),
        getPairs sS tS (buildMatchIdx sl tl) = some prs →
        prs = p0 :: p1 :: p2 :: p3 :: rest →
        findTransform Ts sS tS sl tl = some T →
        solveNum ⟨p0.2, p1.2, p2.2, p3.2⟩
            ⟨vecMul16 p0.1 Ts, vecMul16 p1.1 Ts, vecMul16 p2.1 Ts, vecMul16 p3.1 Ts⟩ =
          smul4 (det4 ⟨p0.2, p1.2, p2.2, p3.2⟩) Tz →
        inR16M Tz →
          vecMul16 p0.2 T = vecMul16 p0.1 Ts ∧ vecMul16 p1.2 T = vecMul16 p1.1 Ts ∧
          vecMul16 p2.2 T = vecMul16 p2.1 Ts ∧ vecMul16 p3.2 T = vecMul16 p3.1 Ts) := by
  refine ⟨?_, ?_, ?_, ?_⟩
  · intro scans lookups scdf conns fuel m h
    unfold findScanTransforms at h
    rw [Option.bind_eq_some] at h
    obtain ⟨c0, hc0, hloop⟩ := h
    constructor
    · exact findLoop_persist scans lookups scdf conns fuel _ _ m hloop 0 idM4
        (lookupA_cons_self 0 idM4 [])
    · intro t T hm ht0
      rcases findLoop_resolution scans lookups scdf conns fuel _ _ m hloop t T hm with
        hin | hex
      · exfalso
        rw [lookupA_cons_ne (fun he => ht0 he.symm)] at hin
        cases hin
      · exact hex
  · intro scans lookups scdf conns fuel known queue m k T h hk
    exact findLoop_persist scans lookups scdf conns fuel known queue m h k T hk
  · intro scans lookups scdf conns fuel known queue s t hlen ht
    conv_lhs => rw [findLoop.eq_def]
    rw [if_pos hlen]
    dsimp only
    rw [if_pos ht]
  · intro Ts sS tS sl tl prs p0 p1 p2 p3 rest T Tz hp hshape hT hint hrange
    exact (findTransform_exact Ts sS tS sl tl prs p0 p1 p2 p3 rest T Tz
      hp hshape hT hint hrange).2

/-- Witness for C1: the composer invariant instantiated on a concrete
two-scan run that resolves scan 1 with the identity transform. -/
theorem c1_witness :
    (lookupA mC1 0 = some idM4 ∧
      (∃ s, ResolvedInto scansC1 lookupsC1 scdfC1 mC1 s 1 idM4)) ∧
    lookupA mC1 1 = some idM4 ∧
    (findLoop scansC1 lookupsC1 scdfC1 connsC1 1 [(0, idM4)] [(5, 0)] =
      findLoop scansC1 lookupsC1 scdfC1 connsC1 0 [(0, idM4)] []) ∧
    (vecMul16 ⟨0,0,0,1⟩ idM4 = vecMul16 ⟨0,0,0,1⟩ idM4 ∧
     vecMul16 ⟨1,0,0,1⟩ idM4 = vecMul16 ⟨1,0,0,1⟩ idM4 ∧
     vecMul16 ⟨0,2,0,1⟩ idM4 = vecMul16 ⟨0,2,0,1⟩ idM4 ∧
     vecMul16 ⟨0,0,3,1⟩ idM4 = vecMul16 ⟨0,0,3,1⟩ idM4) := by
  have h1 := c1_frame_composer.1 scansC1 lookupsC1 scdfC1 connsC1 2 mC1 (by decide)
  refine ⟨⟨h1.1, h1.2 1 idM4 (by decide) (by decide)⟩, ?_, ?_, ?_⟩
  · exact c1_frame_composer.2.1 scansC1 lookupsC1 scdfC1 connsC1 2 [(0, idM4)]
      [(0, 1)] mC1 0 idM4 (by decide) (by decide)
  · exact c1_frame_composer.2.2.1 scansC1 lookupsC1 scdfC1 connsC1 0 [(0, idM4)]
      [] 5 0 (by decide) (by decide)
  · exact c1_frame_composer.2.2.2 idM4
      [⟨0,0,0,1⟩, ⟨1,0,0,1⟩, ⟨0,2,0,1⟩, ⟨0,0,3,1⟩]
      [⟨0,0,0,1⟩, ⟨1,0,0,1⟩, ⟨0,2,0,1⟩, ⟨0,0,3,1⟩]
      [0,1,2,3] [0,1,2,3]
      [(⟨0,0,0,1⟩,⟨0,0,0,1⟩),(⟨1,0,0,1⟩,⟨1,0,0,1⟩),(⟨0,2,0,1⟩,⟨0,2,0,1⟩),(⟨0,0,3,1⟩,⟨0,0,3,1⟩)]
      (⟨0,0,0,1⟩,⟨0,0,0,1⟩) (⟨1,0,0,1⟩,⟨1,0,0,1⟩) (⟨0,2,0,1⟩,⟨0,2,0,1⟩) (⟨0,0,3,1⟩,⟨0,0,3,1⟩)
      [] idM4 idM4 (by decide) rfl (by decide) (by decide) (by decide)

/-- C7: (i) if some scan index below the scan count is unreachable from
scan 0 in the overlap graph (in particular a scan with no overlap at all),
the composer traversal produces nothing — the breadth-first queue runs dry
(or `connections[0]` raises) before all scans resolve and `none` comes
back, for every fuel; (ii) there is no partial success: any map the
traversal does return contains an entry for every scan index; (iii) when
the transform stage fails the pipeline as a whole outputs nothing — no
partial beacon count is produced. -/
theorem c7_disconnected_fails :
    (∀ (scans : List (List (V4 ℤ))) (lookups : List (List (List ℤ)))
       (scdf : List ScoreRow) (conns : ℕ → Option (List ℕ)) (fuel : ℕ),
        (∃ k, k < scans.length ∧ ¬ Reaches conns k) →
        findScanTransforms scans lookups scdf conns fuel = none)
    ∧ (∀ (scans : List (List (V4 ℤ))) (lookups : List (List (List ℤ)))
       (scdf : List ScoreRow) (conns : ℕ → Option (List ℕ)) (fuel : ℕ)
       (m : List (ℕ × M4 ℤ)),
        findScanTransforms scans lookups scdf conns fuel = some m →
        ∀ i, i < scans.length → ∃ T, lookupA m i = some T)
    ∧ (∀ (th : ℕ) (scans : List (List (V4 ℤ))) (fuel : ℕ),
        pipelineTransforms th scans fuel = none →
        day19With th scans fuel = none) := by
  have hmain : ∀ (scans : List (List (V4 ℤ))) (lookups : List (List (List ℤ)))
      (scdf : List ScoreRow) (conns : ℕ → Option (List ℕ)) (fuel : ℕ)
      (m : List (ℕ × M4 ℤ)),
      findScanTransforms scans lookups scdf conns fuel = some m →
      0 < scans.length →
      (∀ i, i < scans.length → ∃ T, lookupA m i = some T) ∧
      (∀ i, i < scans.length → Reaches conns i) := by
    intro scans lookups scdf conns fuel m h hn
    unfold findScanTransforms at h
    rw [Option.bind_eq_some] at h
    obtain ⟨c0, hc0, hloop⟩ := h
    have hbound : ∀ k, k ∈ keysOf [(0, idM4)] → k < scans.length := by
      intro k hk
      unfold keysOf at hk
      simp at hk
      omega
    have hnd : NoDupKeys [(0, idM4)] := by
      unfold NoDupKeys keysOf
      simp
    have hcomp := findLoop_complete scans lookups scdf conns fuel _ _ m hloop hbound hnd
    have hreach := findLoop_reach scans lookups scdf conns fuel _ _ m hloop
      (by
        intro k hk
        unfold keysOf at hk
        simp at hk
        rw [hk]
        exact Reaches.zero)
      (by
        intro p hp
        rw [List.mem_map] at hp
        obtain ⟨u, hu, hpu⟩ := hp
        rw [← hpu]
        exact Reaches.step Reaches.zero hc0 hu)
    constructor
    · intro i hi
      have hmem := hcomp.2 i hi
      rw [← lookupA_isSome_iff] at hmem
      rw [Option.isSome_iff_exists] at hmem
      exact hmem
    · intro i hi
      exact hreach i (hcomp.2 i hi)
  refine ⟨?_, ?_, ?_⟩
  · intro scans lookups scdf conns fuel hex
    obtain ⟨k, hk, hnr⟩ := hex
    rcases hres : findScanTransforms scans lookups scdf conns fuel with _ | m
    · rfl
    · exfalso
      exact hnr ((hmain scans lookups scdf conns fuel m hres (by omega)).2 k hk)
  · intro scans lookups scdf conns fuel m h i hi
    exact (hmain scans lookups scdf conns fuel m h (by omega)).1 i hi
  · intro th scans fuel h
    unfold day19With
    rw [h, Option.none_bind]

/-- Witness for C7: a two-scan input with an empty connection function is
disconnected, so the composer returns nothing; the successful concrete run
`mC1` covers every scan; and a failing transform stage yields no pipeline
output on the empty scan list. -/
theorem c7_witness :
    (findScanTransforms [[⟨0,0,0,1⟩], [⟨9,9,9,1⟩]] [] [] (fun _ => none) 5 = none) ∧
    (∃ T, lookupA mC1 1 = some T) ∧
    day19With 12 [] 3 = none := by
  refine ⟨?_, ?_, ?_⟩
  · apply c7_disconnected_fails.1 [[⟨0,0,0,1⟩], [⟨9,9,9,1⟩]] [] [] (fun _ => none) 5
    refine ⟨1, by decide, ?_⟩
    intro h
    cases h with
    | step h1 h2 h3 => cases h2
  · exact c7_disconnected_fails.2.1 scansC1 lookupsC1 scdfC1 connsC1 2 mC1
      (by decide) 1 (by decide)
  · exact c7_disconnected_fails.2.2 12 [] 3 rfl

theorem transformedAllAux_mem (scans : List (List (V4 ℤ))) (m : List (ℕ × M4 ℤ)) :
    ∀ (idxs : List ℕ) (allB : List (V4 ℤ)),
      transformedAllAux scans m idxs = some allB →
      ∀ p, p ∈ allB ↔ ∃ i, i ∈ idxs ∧ ∃ T scan bcn, lookupA m i = some T ∧
        scans.get? i = some scan ∧ bcn ∈ scan ∧ p = vecMul16 bcn T := by
  intro idxs
  induction idxs with
  | nil =>
    intro allB h p
    cases h
    simp
  | cons i is ih =>
    intro allB h p
    unfold transformedAllAux at h
    simp only [Option.bind_eq_some, Option.map_eq_some'] at h
    obtain ⟨T, hT, scan, hscan, acc, hacc, happ⟩ := h
    rw [← happ, List.mem_append, List.mem_map, ih acc hacc p]
    constructor
    · rintro (⟨bcn, hbcn, hp⟩ | ⟨j, hj, Tj, scanj, bcnj, hTj, hscanj, hbcnj, hpj⟩)
      · exact ⟨i, List.mem_cons_self i is, T, scan, bcn, hT, hscan, hbcn, hp.symm⟩
      · exact ⟨j, List.mem_cons_of_mem i hj, Tj, scanj, bcnj, hTj, hscanj, hbcnj, hpj⟩
    · rintro ⟨j, hj, Tj, scanj, bcnj, hTj, hscanj, hbcnj, hpj⟩
      rcases List.mem_cons.mp hj with rfl | hj
      · left
        rw [hTj] at hT
        rw [hscanj] at hscan
        cases hT
        cases hscan
        exact ⟨bcnj, hbcnj, hpj.symm⟩
      · right
        exact ⟨j, hj, Tj, scanj, bcnj, hTj, hscanj, hbcnj, hpj⟩

theorem foldl_max_spec (l : List ℤ) : ∀ (init : ℤ),
    init ≤ l.foldl max init ∧ (∀ x ∈ l, x ≤ l.foldl max init) ∧
    (l.foldl max init = init ∨ l.foldl max init ∈ l) := by
  induction l with
  | nil => simp
  | cons y ys ih =>
    intro init
    simp only [List.foldl_cons]
    obtain ⟨h1, h2, h3⟩ := ih (max init y)
    refine ⟨le_trans (le_max_left _ _) h1, ?_, ?_⟩
    · intro x hx
      rcases List.mem_cons.mp hx with rfl | hx
      · exact le_trans (le_max_right _ _) h1
      · exact h2 x hx
    · rcases h3 with h | h
      · rw [h]
        rcases max_choice init y with h4 | h4
        · exact Or.inl h4
        · rw [h4]
          exact Or.inr (List.mem_cons_self y ys)
      · exact Or.inr (List.mem_cons_of_mem y h)

theorem manh16_self (v : V4 ℤ) : manh16 v v = 0 := by
  simp [manh16, sub_self, wrap16_zero, i16abs_zero]

/-- C8: when the pipeline produces its output pair `(a, b)`: `a` is the
number of *distinct* points among all beacons transformed by their scan's
global transform (the merged map is exactly the union over the scans of
the transformed beacons, deduplicated); `b` is the maximum over all
ordered pairs of stored transforms — a transform paired with itself
included, contributing `manh16 = 0` — of the `int16` Manhattan distance of
their translation rows: an upper bound that is attained. -/
theorem c8_pipeline_outputs :
    ∀ (th : ℕ) (scans : List (List (V4 ℤ))) (fuel : ℕ)
      (m : List (ℕ × M4 ℤ)) (a : ℕ) (b : ℤ),
      pipelineTransforms th scans fuel = some m →
      day19With th scans fuel = some (a, b) →
      (∃ allB, transformedAll scans m = some allB ∧
        a = allB.toFinset.card ∧
        (∀ p, p ∈ allB ↔ ∃ i, i < scans.length ∧ ∃ T scan bcn,
            lookupA m i = some T ∧ scans.get? i = some scan ∧ bcn ∈ scan ∧
            p = vecMul16 bcn T)) ∧
      (∀ Ti Tj, Ti ∈ m.map (fun p => p.2) → Tj ∈ m.map (fun p => p.2) →
        manh16 Ti.r3 Tj.r3 ≤ b) ∧
      (∃ Ti Tj, Ti ∈ m.map (fun p => p.2) ∧ Tj ∈ m.map (fun p => p.2) ∧
        manh16 Ti.r3 Tj.r3 = b) := by
  intro th scans fuel m a b hm hd
  unfold day19With at hd
  rw [hm, Option.some_bind, Option.map_eq_some'] at hd
  obtain ⟨allB, hallB, hpair⟩ := hd
  have ha : allB.dedup.length = a := congrArg Prod.fst hpair
  have hb : day19b m = b := congrArg Prod.snd hpair
  refine ⟨⟨allB, hallB, ?_, ?_⟩, ?_, ?_⟩
  · rw [List.card_toFinset]
    exact ha.symm
  · intro p
    unfold transformedAll at hallB
    rw [transformedAllAux_mem scans m (List.range scans.length) allB hallB p]
    simp only [List.mem_range]
  · intro Ti Tj hTi hTj
    rw [← hb]
    unfold day19b
    have hmem : manh16 Ti.r3 Tj.r3 ∈ (m.map (fun p => p.2)).flatMap
        (fun x => (m.map (fun p => p.2)).map (fun y => manh16 x.r3 y.r3)) := by
      rw [List.mem_flatMap]
      exact ⟨Ti, hTi, List.mem_map.mpr ⟨Tj, hTj, rfl⟩⟩
    exact (foldl_max_spec _ 0).2.1 _ hmem
  · have h0 : ∃ T0, T0 ∈ m.map (fun p => p.2) := by
      simp only [pipelineTransforms, findScanTransforms, Option.bind_eq_some] at hm
      obtain ⟨c0, hc0, hloop⟩ := hm
      have hl0 := findLoop_persist _ _ _ _ _ _ _ m hloop 0 idM4
        (lookupA_cons_self 0 idM4 [])
      unfold lookupA at hl0
      rw [Option.map_eq_some'] at hl0
      obtain ⟨pr, hfind, hpr⟩ := hl0
      exact ⟨idM4, List.mem_map.mpr ⟨pr, List.mem_of_find?_eq_some hfind, hpr⟩⟩
    obtain ⟨T0, hT0mem⟩ := h0
    rw [← hb]
    unfold day19b
    rcases (foldl_max_spec ((m.map (fun p => p.2)).flatMap
        (fun x => (m.map (fun p => p.2)).map (fun y => manh16 x.r3 y.r3))) 0).2.2 with
      hz | hmem
    · refine ⟨T0, T0, hT0mem, hT0mem, ?_⟩
      rw [hz]
      exact manh16_self _
    · rw [List.mem_flatMap] at hmem
      obtain ⟨Ti, hTi, hmem2⟩ := hmem
      rw [List.mem_map] at hmem2
      obtain ⟨Tj, hTj, hval⟩ := hmem2
      exact ⟨Ti, Tj, hTi, hTj, hval⟩

/-- Witness for C8: on the successful concrete run over `scansW` at
threshold 6 the maximum scanner distance 12 is attained and bounds the
identity pair. -/
theorem c8_witness :
    (∃ Ti Tj, Ti ∈ mW.map (fun p => p.2) ∧ Tj ∈ mW.map (fun p => p.2) ∧
      manh16 Ti.r3 Tj.r3 = 12) ∧
    manh16 idM4.r3 idM4.r3 ≤ 12 := by
  have H := c8_pipeline_outputs 6 scansW 4 mW 6 12 (by decide) (by decide)
  exact ⟨H.2.2, H.2.1 idM4 idM4 (by decide) (by decide)⟩
